import Mathlib

/-
Formal model of the out-of-order CPU instruction queue declared in
src/cpu/o3/inst_queue.hh.  The repository ships only the class declaration;
the member function bodies live in an implementation file that is not part
of src/.  Definitions whose doc comment starts with "Modelled from the spec:"
therefore follow the natural-language specification (spec.md) of the missing
bodies; definitions taken from code present in the header (the pqCompare
functor and the inline updateFreeEntries) say so in their doc comment.

Machine containers are modelled shallowly: class- and thread-indexed arrays
become lists of lists, sequence-number keyed maps and sets become lists of
sequence numbers, register-indexed arrays become functions, and the
std priority queues become lists kept sorted ascending by sequence number
(the comparator pqCompare puts the smallest sequence number on top).
-/

namespace InstQueue

/-- Observable attributes of a DynInst that the IQ relies on (spec section 3).
Sequence numbers are globally unique, so IQ structures store sequence numbers
and this record carries the per-instruction data looked up from them. -/
structure InstInfo where
  tid : Nat
  opClass : Nat
  srcRegs : List Nat
  destRegs : List Nat
  isNonSpec : Bool
  isIssued : Bool
deriving DecidableEq

/-- Entry of the age order list, from the source header (inst_queue.hh:309):
the op class of a ready queue and the sequence number of its oldest entry. -/
structure ListOrderEntry where
  queueType : Nat
  oldestInst : Nat
deriving DecidableEq

/-- State of the instruction queue: the data members declared in the source
header (inst_queue.hh:264, 294, 304, 318, 360, 366, 369, 372, 437, 445),
together with the per-instruction mutable data the IQ relies on (pending
source-operand counts and squashed marks) and the per-thread memory
dependence units abstracted as event logs. -/
@[ext] structure IQ where
  numEntries : Nat
  totalWidth : Nat
  instList : List (List Nat)
  readyInsts : List (List Nat)
  listOrder : List ListOrderEntry
  nonSpecInsts : List Nat
  dependGraph : Nat → List Nat
  regScoreboard : Nat → Bool
  pendingSrcs : Nat → Nat
  squashedSet : List Nat
  awaitReplay : List Nat
  count : List Nat
  freeEntries : Nat
  memDepUnit : Nat → List (Nat × Nat)

/-- Ready queue of op class c (empty when out of range). -/
def IQ.queue (s : IQ) (c : Nat) : List Nat :=
  s.readyInsts.getD c []

/-- Modelled from the spec: insertion into a ready queue (the push on the
std priority queue of inst_queue.hh:288, whose call sites are in the missing
implementation file), on the sorted-list abstraction of the queue. -/
def sortedInsert (sn : Nat) : List Nat → List Nat
  | [] => [sn]
  | x :: xs => if sn < x then sn :: x :: xs else x :: sortedInsert sn xs

/-- Modelled from the spec: insertion of an entry into the age order list at
its position in ascending oldestInst order (spec section 3, age-order list). -/
def orderInsert (e : ListOrderEntry) : List ListOrderEntry → List ListOrderEntry
  | [] => [e]
  | f :: fs => if e.oldestInst < f.oldestInst then e :: f :: fs else f :: orderInsert e fs

/-- Modelled from the spec: addToOrderList (declared at inst_queue.hh:331, body
absent from src/): put op class c on the age order list, keyed by the oldest
sequence number of its ready queue. -/
def addToOrderList (c : Nat) (s : IQ) : IQ :=
  { s with listOrder := orderInsert ⟨c, (s.queue c).headD 0⟩ s.listOrder }

/-- Modelled from the spec: moveToYoungerInst (declared at inst_queue.hh:337,
body absent from src/): reposition the age order entry of op class c according
to the new oldest instruction of its ready queue. -/
def moveToYoungerInst (c : Nat) (s : IQ) : IQ :=
  { s with listOrder :=
      orderInsert ⟨c, (s.queue c).headD 0⟩ (s.listOrder.filter (fun e => e.queueType != c)) }

/-- Modelled from the spec (section 4.2, addIfReady; body absent from src/):
push sequence number sn onto ready queue c and maintain the age order list: a
newly non-empty queue is added to the list, and a queue whose minimum changed
is repositioned toward the head. -/
def pushReady (c sn : Nat) (s : IQ) : IQ :=
  let q := s.queue c
  let s' := { s with readyInsts := s.readyInsts.set c (sortedInsert sn q) }
  match q with
  | [] => { s' with listOrder := orderInsert ⟨c, sn⟩ s'.listOrder }
  | x :: _ =>
    if sn < x then
      { s' with listOrder := orderInsert ⟨c, sn⟩ (s'.listOrder.filter (fun e => e.queueType != c)) }
    else s'

/-- Modelled from the spec (section 4.3 step d; body absent from src/): pop the
oldest instruction of ready queue c; if the queue empties its age order entry
is removed, otherwise moveToYoungerInst repositions it. -/
def popReadyTop (c : Nat) (s : IQ) : IQ :=
  match s.queue c with
  | [] => s
  | _ :: rest =>
    let s' := { s with readyInsts := s.readyInsts.set c rest }
    if rest = [] then { s' with listOrder := s'.listOrder.filter (fun e => e.queueType != c) }
    else moveToYoungerInst c s'

/-- Modelled from the spec (section 4.5, rescheduleMemInst removes the inst
from any ready queue; body absent from src/): remove sequence number sn from
ready queue c if present, maintaining the age order list: the entry is dropped
if the queue empties and repositioned if sn was the queue-oldest. -/
def eraseReady (c sn : Nat) (s : IQ) : IQ :=
  let q := s.queue c
  if sn ∈ q then
    let q' := q.filter (fun m => m != sn)
    let s' := { s with readyInsts := s.readyInsts.set c q' }
    if q' = [] then { s' with listOrder := s'.listOrder.filter (fun e => e.queueType != c) }
    else if sn = q.headD 0 then moveToYoungerInst c s'
    else s'
  else s

/-- Modelled from the spec: addIfReady (declared at inst_queue.hh:454, body
absent from src/): if the instruction has no pending source operands, is not
already issued and is not non-speculative, push it onto the ready queue of its
op class. -/
def addIfReady (env : Nat → InstInfo) (sn : Nat) (s : IQ) : IQ :=
  if s.pendingSrcs sn = 0 ∧ (env sn).isIssued = false ∧ (env sn).isNonSpec = false then
    pushReady (env sn).opClass sn s
  else s

/-- Well-formedness of the ready queues and the age order list (spec
invariants 3 to 5): queues strictly sorted ascending (oldest on top), any
sequence number in at most one queue, and the age order list holding exactly
one correctly keyed entry for each non-empty queue, strictly ascending by
oldest sequence number. -/
@[reducible] def WFready (s : IQ) : Prop :=
  (∀ q ∈ s.readyInsts, q.Pairwise (· < ·)) ∧
  (∀ c1, c1 < s.readyInsts.length → ∀ c2, c2 < s.readyInsts.length →
    ∀ m ∈ s.queue c1, c1 ≠ c2 → m ∉ s.queue c2) ∧
  (s.listOrder.map (·.queueType)).Nodup ∧
  (∀ e ∈ s.listOrder, e.queueType < s.readyInsts.length ∧ s.queue e.queueType ≠ [] ∧
    e.oldestInst = (s.queue e.queueType).headD 0) ∧
  (∀ c, c < s.readyInsts.length → s.queue c ≠ [] → ∃ e ∈ s.listOrder, e.queueType = c) ∧
  s.listOrder.Pairwise (fun a b => a.oldestInst < b.oldestInst)

/-- A sequence number not present in any ready queue. -/
@[reducible] def freshSN (s : IQ) (sn : Nat) : Prop :=
  ∀ q ∈ s.readyInsts, sn ∉ q

/- ### Helper lemmas: getD and set -/

theorem getD_set_self {α : Type} (l : List α) (c : Nat) (v d : α) (h : c < l.length) :
    (l.set c v).getD c d = v := by
  simp [List.getD_eq_getElem?_getD, List.getElem?_set_self (by simpa using h)]

theorem getD_set_ne {α : Type} (l : List α) (c c' : Nat) (v d : α) (h : c ≠ c') :
    (l.set c v).getD c' d = l.getD c' d := by
  simp [List.getD_eq_getElem?_getD, List.getElem?_set_ne h]

theorem set_getD_self {α : Type} (l : List α) (c : Nat) (d : α) (h : c < l.length) :
    l.set c (l.getD c d) = l := by
  induction l generalizing c with
  | nil => simp at h
  | cons x xs ih =>
    cases c with
    | zero => simp [List.getD]
    | succ n =>
      simp only [List.length_cons, Nat.succ_lt_succ_iff] at h
      rw [List.getD_cons_succ, List.set_cons_succ, ih n h]

/- ### Helper lemmas: sortedInsert -/

theorem mem_sortedInsert (sn m : Nat) (l : List Nat) :
    m ∈ sortedInsert sn l ↔ m = sn ∨ m ∈ l := by
  induction l with
  | nil => simp [sortedInsert]
  | cons x xs ih =>
    by_cases h : sn < x
    · simp [sortedInsert, h]
    · simp only [sortedInsert, if_neg h, List.mem_cons, ih]
      tauto

theorem sortedInsert_ne_nil (sn : Nat) (l : List Nat) : sortedInsert sn l ≠ [] := by
  cases l with
  | nil => simp [sortedInsert]
  | cons x xs =>
    by_cases h : sn < x <;> simp [sortedInsert, h]

theorem sortedInsert_pairwise (sn : Nat) (l : List Nat) (hs : l.Pairwise (· < ·))
    (hf : sn ∉ l) : (sortedInsert sn l).Pairwise (· < ·) := by
  induction l with
  | nil => simp [sortedInsert]
  | cons x xs ih =>
    rcases List.pairwise_cons.mp hs with ⟨hx, hxs⟩
    simp only [List.mem_cons, not_or] at hf
    by_cases h : sn < x
    · simp only [sortedInsert, if_pos h]
      refine List.pairwise_cons.mpr ⟨?_, hs⟩
      intro b hb
      rcases List.mem_cons.mp hb with rfl | hb
      · exact h
      · exact lt_trans h (hx b hb)
    · have hxsn : x < sn := lt_of_le_of_ne (not_lt.mp h) (Ne.symm hf.1)
      simp only [sortedInsert, if_neg h]
      refine List.pairwise_cons.mpr ⟨?_, ih hxs hf.2⟩
      intro b hb
      rcases (mem_sortedInsert sn b xs).mp hb with rfl | hb
      · exact hxsn
      · exact hx b hb

theorem filter_sortedInsert (sn : Nat) (l : List Nat) (hf : sn ∉ l) :
    (sortedInsert sn l).filter (fun m => m != sn) = l := by
  induction l with
  | nil => simp [sortedInsert]
  | cons x xs ih =>
    simp only [List.mem_cons, not_or] at hf
    by_cases h : sn < x
    · simp only [sortedInsert, if_pos h]
      rw [List.filter_cons_of_neg (by simp)]
      refine List.filter_eq_self.mpr ?_
      intro a ha
      rcases List.mem_cons.mp ha with rfl | ha
      · simpa using (Ne.symm hf.1)
      · simp only [bne_iff_ne, ne_eq]
        intro heq; exact hf.2 (heq ▸ ha)
    · simp only [sortedInsert, if_neg h]
      rw [List.filter_cons_of_pos (by simpa using (Ne.symm hf.1)), ih hf.2]

theorem headD_sortedInsert_of_not_lt (sn x : Nat) (xs : List Nat) (h : ¬ sn < x) :
    sortedInsert sn (x :: xs) = x :: sortedInsert sn xs := by
  simp [sortedInsert, h]

/- ### Helper lemmas: orderInsert -/

theorem orderInsert_perm (e : ListOrderEntry) (l : List ListOrderEntry) :
    (orderInsert e l).Perm (e :: l) := by
  induction l with
  | nil => simp [orderInsert]
  | cons f fs ih =>
    by_cases h : e.oldestInst < f.oldestInst
    · simp [orderInsert, h]
    · simp only [orderInsert, if_neg h]
      exact (List.Perm.cons f ih).trans (List.Perm.swap e f fs)

theorem mem_orderInsert (e e' : ListOrderEntry) (l : List ListOrderEntry) :
    e' ∈ orderInsert e l ↔ e' = e ∨ e' ∈ l := by
  rw [(orderInsert_perm e l).mem_iff]
  simp

theorem orderInsert_pairwise (e : ListOrderEntry) (l : List ListOrderEntry)
    (hs : l.Pairwise (fun a b => a.oldestInst < b.oldestInst))
    (hf : ∀ f ∈ l, f.oldestInst ≠ e.oldestInst) :
    (orderInsert e l).Pairwise (fun a b => a.oldestInst < b.oldestInst) := by
  induction l with
  | nil => simp [orderInsert]
  | cons f fs ih =>
    rcases List.pairwise_cons.mp hs with ⟨hx, hxs⟩
    by_cases h : e.oldestInst < f.oldestInst
    · simp only [orderInsert, if_pos h]
      refine List.pairwise_cons.mpr ⟨?_, hs⟩
      intro b hb
      rcases List.mem_cons.mp hb with rfl | hb
      · exact h
      · exact lt_trans h (hx b hb)
    · have hfe : f.oldestInst < e.oldestInst :=
        lt_of_le_of_ne (not_lt.mp h) (hf f (List.mem_cons_self f fs))
      simp only [orderInsert, if_neg h]
      refine List.pairwise_cons.mpr ⟨?_, ih hxs (fun g hg => hf g (List.mem_cons_of_mem f hg))⟩
      intro b hb
      rcases (mem_orderInsert e b fs).mp hb with rfl | hb
      · exact hfe
      · exact hx b hb

theorem filter_orderInsert (e : ListOrderEntry) (l : List ListOrderEntry)
    (p : ListOrderEntry → Bool) (hp : p e = false) :
    (orderInsert e l).filter p = l.filter p := by
  induction l with
  | nil => simp [orderInsert, hp]
  | cons f fs ih =>
    by_cases h : e.oldestInst < f.oldestInst
    · simp [orderInsert, h, List.filter_cons, hp]
    · simp only [orderInsert, if_neg h, List.filter_cons]
      cases hpf : p f <;> simp [hpf, ih]

theorem orderInsert_filter_self (e : ListOrderEntry) (l : List ListOrderEntry)
    (hs : l.Pairwise (fun a b => a.oldestInst < b.oldestInst))
    (hn : (l.map (·.queueType)).Nodup) (he : e ∈ l) :
    orderInsert e (l.filter (fun f => f.queueType != e.queueType)) = l := by
  induction l with
  | nil => simp at he
  | cons f fs ih =>
    rcases List.pairwise_cons.mp hs with ⟨hx, hxs⟩
    simp only [List.map_cons, List.nodup_cons] at hn
    rcases List.mem_cons.mp he with rfl | he
    · have hfs : fs.filter (fun g => g.queueType != e.queueType) = fs := by
        refine List.filter_eq_self.mpr ?_
        intro g hg
        simp only [bne_iff_ne, ne_eq]
        intro hgq
        exact hn.1 (hgq ▸ (List.mem_map_of_mem (·.queueType) hg))
      rw [List.filter_cons_of_neg (by simp), hfs]
      cases fs with
      | nil => simp [orderInsert]
      | cons g gs =>
        have : e.oldestInst < g.oldestInst := hx g (List.mem_cons_self g gs)
        simp [orderInsert, this]
    · have hfq : (f.queueType != e.queueType) = true := by
        simp only [bne_iff_ne, ne_eq]
        intro hq
        exact hn.1 (hq ▸ (List.mem_map_of_mem (·.queueType) he))
      have hstep : List.filter (fun g => g.queueType != e.queueType) (f :: fs)
          = f :: List.filter (fun g => g.queueType != e.queueType) fs :=
        List.filter_cons_of_pos hfq
      rw [hstep]
      have hfe : ¬ e.oldestInst < f.oldestInst := not_lt.mpr (le_of_lt (hx e he))
      simp only [orderInsert, if_neg hfe]
      rw [ih hxs hn.2 he]

/- ### Basic facts about queues and the state -/

theorem queue_mem (s : IQ) (c : Nat) (h : c < s.readyInsts.length) :
    s.queue c ∈ s.readyInsts := by
  have : s.readyInsts.getD c [] = s.readyInsts[c] := by
    simp [List.getD_eq_getElem?_getD, List.getElem?_eq_getElem h]
  rw [IQ.queue, this]
  exact List.getElem_mem h

theorem queue_ne_nil_lt (s : IQ) (c : Nat) (h : s.queue c ≠ []) :
    c < s.readyInsts.length := by
  by_contra hc
  apply h
  have hn : s.readyInsts[c]? = none := List.getElem?_eq_none (le_of_not_lt hc)
  simp [IQ.queue, List.getD_eq_getElem?_getD, hn]

theorem headD_mem {α : Type} (l : List α) (d : α) (h : l ≠ []) : l.headD d ∈ l := by
  cases l with
  | nil => exact absurd rfl h
  | cons x xs => simp

/- ### Characterizations of pushReady, popReadyTop and eraseReady -/

theorem pushReady_of_nil (c sn : Nat) (s : IQ) (h : s.queue c = []) :
    pushReady c sn s =
      { s with readyInsts := s.readyInsts.set c [sn],
               listOrder := orderInsert ⟨c, sn⟩ s.listOrder } := by
  unfold pushReady
  rw [h]
  rfl

theorem pushReady_of_newmin (c sn x : Nat) (xs : List Nat) (s : IQ)
    (h : s.queue c = x :: xs) (hlt : sn < x) :
    pushReady c sn s =
      { s with readyInsts := s.readyInsts.set c (sn :: x :: xs),
               listOrder := orderInsert ⟨c, sn⟩
                 (s.listOrder.filter (fun e => e.queueType != c)) } := by
  unfold pushReady
  rw [h]
  simp [sortedInsert, hlt]

theorem pushReady_of_notmin (c sn x : Nat) (xs : List Nat) (s : IQ)
    (h : s.queue c = x :: xs) (hlt : ¬ sn < x) :
    pushReady c sn s =
      { s with readyInsts := s.readyInsts.set c (x :: sortedInsert sn xs) } := by
  unfold pushReady
  rw [h]
  simp [sortedInsert, hlt]

theorem popReadyTop_of_nil (c : Nat) (s : IQ) (h : s.queue c = []) :
    popReadyTop c s = s := by
  unfold popReadyTop
  rw [h]

theorem popReadyTop_of_single (c x : Nat) (s : IQ) (h : s.queue c = [x]) :
    popReadyTop c s =
      { s with readyInsts := s.readyInsts.set c [],
               listOrder := s.listOrder.filter (fun e => e.queueType != c) } := by
  unfold popReadyTop
  rw [h]
  rfl

theorem popReadyTop_of_more (c x : Nat) (rest : List Nat) (s : IQ)
    (h : s.queue c = x :: rest) (hr : rest ≠ []) :
    popReadyTop c s =
      { s with readyInsts := s.readyInsts.set c rest,
               listOrder := orderInsert ⟨c, rest.headD 0⟩
                 (s.listOrder.filter (fun e => e.queueType != c)) } := by
  have hc : c < s.readyInsts.length := queue_ne_nil_lt s c (by rw [h]; simp)
  unfold popReadyTop
  rw [h]
  simp only [if_neg hr, moveToYoungerInst]
  have hq : ({ s with readyInsts := s.readyInsts.set c rest } : IQ).queue c = rest :=
    getD_set_self s.readyInsts c rest [] hc
  rw [hq]

theorem getD_set_split (l : List (List Nat)) (c : Nat) (v : List Nat)
    (hc : c < l.length) (c' : Nat) :
    (l.set c v).getD c' [] = if c' = c then v else l.getD c' [] := by
  by_cases h : c' = c
  · subst h
    rw [if_pos rfl]
    exact getD_set_self _ _ _ _ hc
  · rw [if_neg h]
    exact getD_set_ne _ _ _ _ _ (fun hh => h hh.symm)

/- ### Well-formedness preservation by the ready queue operations -/

theorem fresh_notin_queue (s : IQ) (sn c : Nat) (hf : freshSN s sn)
    (hc : c < s.readyInsts.length) : sn ∉ s.queue c :=
  hf _ (queue_mem s c hc)

theorem oldest_ne_fresh (s : IQ) (sn : Nat) (hf : freshSN s sn)
    (hep : ∀ e ∈ s.listOrder, e.queueType < s.readyInsts.length ∧ s.queue e.queueType ≠ [] ∧
      e.oldestInst = (s.queue e.queueType).headD 0) :
    ∀ e ∈ s.listOrder, e.oldestInst ≠ sn := by
  intro e he heq
  obtain ⟨hel, hne, hh⟩ := hep e he
  have hm : e.oldestInst ∈ s.queue e.queueType := hh ▸ headD_mem _ 0 hne
  exact fresh_notin_queue s sn e.queueType hf hel (heq ▸ hm)

theorem pushReady_WF (c sn : Nat) (s : IQ) (hw : WFready s)
    (hc : c < s.readyInsts.length) (hf : freshSN s sn) : WFready (pushReady c sn s) := by
  obtain ⟨WQ, DJ, ND, EP, CV, LO⟩ := hw
  have holdne : ∀ e ∈ s.listOrder, e.oldestInst ≠ sn := oldest_ne_fresh s sn hf EP
  cases hq : s.queue c with
  | nil =>
    rw [pushReady_of_nil c sn s hq]
    have hsp := getD_set_split s.readyInsts c [sn] hc
    dsimp only [WFready, IQ.queue]
    simp only [List.length_set]
    refine ⟨?_, ?_, ?_, ?_, ?_, ?_⟩
    · intro q hql
      rcases List.mem_or_eq_of_mem_set hql with h | rfl
      · exact WQ q h
      · simp
    · intro c1 h1 c2 h2 m hm1 hne
      rw [hsp c1] at hm1
      rw [hsp c2]
      by_cases e1 : c1 = c
      · subst e1
        rw [if_pos rfl] at hm1
        have hm : m = sn := by simpa using hm1
        subst hm
        rw [if_neg (fun h => hne h.symm)]
        exact fresh_notin_queue s m c2 hf h2
      · rw [if_neg e1] at hm1
        by_cases e2 : c2 = c
        · subst e2
          rw [if_pos rfl]
          intro hmem
          have hm : m = sn := by simpa using hmem
          exact fresh_notin_queue s sn c1 hf h1 (hm ▸ hm1)
        · rw [if_neg e2]
          exact DJ c1 h1 c2 h2 m hm1 hne
    · have hperm := (orderInsert_perm ⟨c, sn⟩ s.listOrder).map (fun e => e.queueType)
      rw [hperm.nodup_iff, List.map_cons, List.nodup_cons]
      refine ⟨?_, ND⟩
      intro hmem
      obtain ⟨e, he, heq⟩ := List.mem_map.mp hmem
      have hqe : s.queue e.queueType = [] := by
        rw [heq]
        exact hq
      exact (EP e he).2.1 hqe
    · intro e' he'
      rcases (mem_orderInsert _ e' _).mp he' with rfl | he'
      · dsimp only
        refine ⟨hc, ?_, ?_⟩
        · rw [hsp c, if_pos rfl]
          simp
        · rw [hsp c, if_pos rfl]
          rfl
      · obtain ⟨hel, hne, hh⟩ := EP e' he'
        have hclne : e'.queueType ≠ c := fun h => hne (by rw [h]; exact hq)
        refine ⟨hel, ?_, ?_⟩
        · rw [hsp e'.queueType, if_neg hclne]
          exact hne
        · rw [hsp e'.queueType, if_neg hclne]
          exact hh
    · intro c' hlen hne
      by_cases h : c' = c
      · subst h
        exact ⟨⟨c', sn⟩, (mem_orderInsert _ _ _).mpr (Or.inl rfl), rfl⟩
      · rw [hsp c', if_neg h] at hne
        obtain ⟨e, heL, hec⟩ := CV c' hlen hne
        exact ⟨e, (mem_orderInsert _ _ _).mpr (Or.inr heL), hec⟩
    · exact orderInsert_pairwise _ _ LO holdne
  | cons x xs =>
    have hqpw : (s.queue c).Pairwise (· < ·) := WQ _ (queue_mem s c hc)
    have hfsq : sn ∉ s.queue c := fresh_notin_queue s sn c hf hc
    have hins : (sortedInsert sn (x :: xs)).Pairwise (· < ·) := by
      rw [← hq]
      exact sortedInsert_pairwise sn _ hqpw hfsq
    by_cases hlt : sn < x
    · rw [pushReady_of_newmin c sn x xs s hq hlt]
      have hsp := getD_set_split s.readyInsts c (sn :: x :: xs) hc
      simp only [sortedInsert, if_pos hlt] at hins
      dsimp only [WFready, IQ.queue]
      simp only [List.length_set]
      refine ⟨?_, ?_, ?_, ?_, ?_, ?_⟩
      · intro q hql
        rcases List.mem_or_eq_of_mem_set hql with h | rfl
        · exact WQ q h
        · exact hins
      · intro c1 h1 c2 h2 m hm1 hne
        rw [hsp c1] at hm1
        rw [hsp c2]
        by_cases e1 : c1 = c
        · subst e1
          rw [if_pos rfl] at hm1
          rw [if_neg (fun h => hne h.symm)]
          rcases List.mem_cons.mp hm1 with rfl | hm1
          · exact fresh_notin_queue s m c2 hf h2
          · exact DJ c1 h1 c2 h2 m (by rw [hq]; exact hm1) hne
        · rw [if_neg e1] at hm1
          by_cases e2 : c2 = c
          · subst e2
            rw [if_pos rfl]
            intro hmem
            rcases List.mem_cons.mp hmem with rfl | hmem
            · exact fresh_notin_queue s m c1 hf h1 hm1
            · exact DJ c1 h1 c2 h2 m hm1 hne (by rw [hq]; exact hmem)
          · rw [if_neg e2]
            exact DJ c1 h1 c2 h2 m hm1 hne
      · have hperm := (orderInsert_perm ⟨c, sn⟩
          (s.listOrder.filter (fun e => e.queueType != c))).map (fun e => e.queueType)
        rw [hperm.nodup_iff, List.map_cons, List.nodup_cons]
        refine ⟨?_, ((List.filter_sublist s.listOrder).map (fun e => e.queueType)).nodup ND⟩
        intro hmem
        obtain ⟨e, he, heq⟩ := List.mem_map.mp hmem
        have := (List.mem_filter.mp he).2
        simp only [bne_iff_ne, ne_eq] at this
        exact this heq
      · intro e' he'
        rcases (mem_orderInsert _ e' _).mp he' with rfl | he'
        · dsimp only
          refine ⟨hc, ?_, ?_⟩
          · rw [hsp c, if_pos rfl]
            simp
          · rw [hsp c, if_pos rfl]
            rfl
        · have hmf := List.mem_filter.mp he'
          obtain ⟨hel, hne, hh⟩ := EP e' hmf.1
          have hclne : e'.queueType ≠ c := by simpa using hmf.2
          refine ⟨hel, ?_, ?_⟩
          · rw [hsp e'.queueType, if_neg hclne]
            exact hne
          · rw [hsp e'.queueType, if_neg hclne]
            exact hh
      · intro c' hlen hne
        by_cases h : c' = c
        · subst h
          exact ⟨⟨c', sn⟩, (mem_orderInsert _ _ _).mpr (Or.inl rfl), rfl⟩
        · rw [hsp c', if_neg h] at hne
          obtain ⟨e, heL, hec⟩ := CV c' hlen hne
          refine ⟨e, (mem_orderInsert _ _ _).mpr (Or.inr ?_), hec⟩
          refine List.mem_filter.mpr ⟨heL, ?_⟩
          simp only [bne_iff_ne, ne_eq]
          rw [hec]
          exact h
      · refine orderInsert_pairwise _ _ (List.Pairwise.sublist (List.filter_sublist s.listOrder) LO) ?_
        intro f hfm
        exact holdne f (List.mem_filter.mp hfm).1
    · rw [pushReady_of_notmin c sn x xs s hq hlt]
      have hsp := getD_set_split s.readyInsts c (x :: sortedInsert sn xs) hc
      have hconv : x :: sortedInsert sn xs = sortedInsert sn (x :: xs) := by
        simp [sortedInsert, hlt]
      dsimp only [WFready, IQ.queue]
      simp only [List.length_set]
      refine ⟨?_, ?_, ?_, ?_, ?_, ?_⟩
      · intro q hql
        rcases List.mem_or_eq_of_mem_set hql with h | rfl
        · exact WQ q h
        · rw [hconv]
          exact hins
      · intro c1 h1 c2 h2 m hm1 hne
        rw [hsp c1] at hm1
        rw [hsp c2]
        by_cases e1 : c1 = c
        · subst e1
          rw [if_pos rfl, hconv] at hm1
          rw [if_neg (fun h => hne h.symm)]
          rcases (mem_sortedInsert sn m (x :: xs)).mp hm1 with rfl | hm1
          · exact fresh_notin_queue s m c2 hf h2
          · exact DJ c1 h1 c2 h2 m (by rw [hq]; exact hm1) hne
        · rw [if_neg e1] at hm1
          by_cases e2 : c2 = c
          · subst e2
            rw [if_pos rfl, hconv]
            intro hmem
            rcases (mem_sortedInsert sn m (x :: xs)).mp hmem with rfl | hmem
            · exact fresh_notin_queue s m c1 hf h1 hm1
            · exact DJ c1 h1 c2 h2 m hm1 hne (by rw [hq]; exact hmem)
          · rw [if_neg e2]
            exact DJ c1 h1 c2 h2 m hm1 hne
      · exact ND
      · intro e' he'
        obtain ⟨hel, hne, hh⟩ := EP e' he'
        refine ⟨hel, ?_, ?_⟩
        · rw [hsp e'.queueType]
          by_cases h : e'.queueType = c
          · rw [if_pos h]
            simp
          · rw [if_neg h]
            exact hne
        · rw [hsp e'.queueType]
          by_cases h : e'.queueType = c
          · rw [if_pos h]
            have hx : e'.oldestInst = x := by
              rw [hh, h, hq]
              rfl
            rw [hx]
            rfl
          · rw [if_neg h]
            exact hh
      · intro c' hlen hne
        by_cases h : c' = c
        · subst h
          refine CV c' hlen ?_
          rw [hq]
          simp
        · rw [hsp c', if_neg h] at hne
          exact CV c' hlen hne
      · exact LO

theorem popReadyTop_WF (c : Nat) (s : IQ) (hw : WFready s) : WFready (popReadyTop c s) := by
  obtain ⟨WQ, DJ, ND, EP, CV, LO⟩ := hw
  cases hq : s.queue c with
  | nil =>
    rw [popReadyTop_of_nil c s hq]
    exact ⟨WQ, DJ, ND, EP, CV, LO⟩
  | cons x rest =>
    have hc : c < s.readyInsts.length := queue_ne_nil_lt s c (by rw [hq]; simp)
    have hqpw : (s.queue c).Pairwise (· < ·) := WQ _ (queue_mem s c hc)
    cases hrest : rest with
    | nil =>
      subst hrest
      rw [popReadyTop_of_single c x s hq]
      have hsp := getD_set_split s.readyInsts c [] hc
      dsimp only [WFready, IQ.queue]
      simp only [List.length_set]
      refine ⟨?_, ?_, ?_, ?_, ?_, ?_⟩
      · intro q hql
        rcases List.mem_or_eq_of_mem_set hql with h | rfl
        · exact WQ q h
        · simp
      · intro c1 h1 c2 h2 m hm1 hne
        rw [hsp c1] at hm1
        rw [hsp c2]
        by_cases e1 : c1 = c
        · subst e1
          rw [if_pos rfl] at hm1
          simp at hm1
        · rw [if_neg e1] at hm1
          by_cases e2 : c2 = c
          · subst e2
            rw [if_pos rfl]
            simp
          · rw [if_neg e2]
            exact DJ c1 h1 c2 h2 m hm1 hne
      · exact ((List.filter_sublist s.listOrder).map (fun e => e.queueType)).nodup ND
      · intro e' he'
        have hmf := List.mem_filter.mp he'
        obtain ⟨hel, hne, hh⟩ := EP e' hmf.1
        have hclne : e'.queueType ≠ c := by simpa using hmf.2
        refine ⟨hel, ?_, ?_⟩
        · rw [hsp e'.queueType, if_neg hclne]
          exact hne
        · rw [hsp e'.queueType, if_neg hclne]
          exact hh
      · intro c' hlen hne
        by_cases h : c' = c
        · subst h
          rw [hsp c', if_pos rfl] at hne
          exact absurd rfl hne
        · rw [hsp c', if_neg h] at hne
          obtain ⟨e, heL, hec⟩ := CV c' hlen hne
          refine ⟨e, List.mem_filter.mpr ⟨heL, ?_⟩, hec⟩
          simp only [bne_iff_ne, ne_eq]
          rw [hec]
          exact h
      · exact List.Pairwise.sublist (List.filter_sublist s.listOrder) LO
    | cons y' ys =>
      have hrne : rest ≠ [] := by rw [hrest]; simp
      rw [popReadyTop_of_more c x rest s hq hrne]
      have hsp := getD_set_split s.readyInsts c rest hc
      have hrsub : rest.Sublist (s.queue c) := by rw [hq]; exact List.sublist_cons_self x rest
      have hrpw : rest.Pairwise (· < ·) := (List.pairwise_cons.mp (hq ▸ hqpw)).2
      have hymem : rest.headD 0 ∈ s.queue c := hrsub.mem (headD_mem rest 0 hrne)
      have holdy : ∀ f ∈ s.listOrder.filter (fun e => e.queueType != c),
          f.oldestInst ≠ rest.headD 0 := by
        intro f hfm heq
        have hmf := List.mem_filter.mp hfm
        obtain ⟨hel, hne, hh⟩ := EP f hmf.1
        have hclne : f.queueType ≠ c := by simpa using hmf.2
        have hfold : f.oldestInst ∈ s.queue f.queueType := hh ▸ headD_mem _ 0 hne
        exact DJ f.queueType hel c hc f.oldestInst hfold hclne (heq ▸ hymem)
      dsimp only [WFready, IQ.queue]
      simp only [List.length_set]
      refine ⟨?_, ?_, ?_, ?_, ?_, ?_⟩
      · intro q hql
        rcases List.mem_or_eq_of_mem_set hql with h | rfl
        · exact WQ q h
        · exact hrpw
      · intro c1 h1 c2 h2 m hm1 hne
        rw [hsp c1] at hm1
        rw [hsp c2]
        by_cases e1 : c1 = c
        · subst e1
          rw [if_pos rfl] at hm1
          rw [if_neg (fun h => hne h.symm)]
          exact DJ c1 h1 c2 h2 m (hrsub.mem hm1) hne
        · rw [if_neg e1] at hm1
          by_cases e2 : c2 = c
          · subst e2
            rw [if_pos rfl]
            intro hmem
            exact DJ c1 h1 c2 h2 m hm1 hne (hrsub.mem hmem)
          · rw [if_neg e2]
            exact DJ c1 h1 c2 h2 m hm1 hne
      · have hperm := (orderInsert_perm ⟨c, rest.headD 0⟩
          (s.listOrder.filter (fun e => e.queueType != c))).map (fun e => e.queueType)
        rw [hperm.nodup_iff, List.map_cons, List.nodup_cons]
        refine ⟨?_, ((List.filter_sublist s.listOrder).map (fun e => e.queueType)).nodup ND⟩
        intro hmem
        obtain ⟨e, he, heq⟩ := List.mem_map.mp hmem
        have := (List.mem_filter.mp he).2
        simp only [bne_iff_ne, ne_eq] at this
        exact this heq
      · intro e' he'
        rcases (mem_orderInsert _ e' _).mp he' with rfl | he'
        · dsimp only
          refine ⟨hc, ?_, ?_⟩
          · rw [hsp c, if_pos rfl]
            exact hrne
          · rw [hsp c, if_pos rfl]
        · have hmf := List.mem_filter.mp he'
          obtain ⟨hel, hne, hh⟩ := EP e' hmf.1
          have hclne : e'.queueType ≠ c := by simpa using hmf.2
          refine ⟨hel, ?_, ?_⟩
          · rw [hsp e'.queueType, if_neg hclne]
            exact hne
          · rw [hsp e'.queueType, if_neg hclne]
            exact hh
      · intro c' hlen hne
        by_cases h : c' = c
        · subst h
          exact ⟨⟨c', rest.headD 0⟩, (mem_orderInsert _ _ _).mpr (Or.inl rfl), rfl⟩
        · rw [hsp c', if_neg h] at hne
          obtain ⟨e, heL, hec⟩ := CV c' hlen hne
          refine ⟨e, (mem_orderInsert _ _ _).mpr (Or.inr ?_), hec⟩
          refine List.mem_filter.mpr ⟨heL, ?_⟩
          simp only [bne_iff_ne, ne_eq]
          rw [hec]
          exact h
      · exact orderInsert_pairwise _ _
          (List.Pairwise.sublist (List.filter_sublist s.listOrder) LO) holdy

/- ### The per-cycle scheduler -/

/-- Modelled from the spec (section 4.3 steps 2a to 2c together with the
lazy-removal rule of section 4.8; the scheduleReadyInsts body is absent from
src/, only its declaration at inst_queue.hh:176): walk the age order list head
to tail for the next action: pop a squashed queue top, or dispatch the queue
top of the first entry whose op class has a free function unit. -/
def findDispatch (s : IQ) (fu : List Nat) : List ListOrderEntry → Option (Nat × Nat × Bool)
  | [] => none
  | e :: es =>
    match s.queue e.queueType with
    | [] => findDispatch s fu es
    | sn :: _ =>
      if sn ∈ s.squashedSet then some (e.queueType, sn, true)
      else if fu.getD e.queueType 0 ≠ 0 then some (e.queueType, sn, false)
      else findDispatch s fu es

/-- Modelled from the spec (section 4.3; body absent from src/): the selection
loop of scheduleReadyInsts. A dispatch consumes a function unit of its op
class, counts against the issue width and restarts the walk from the head of
the age order list (step 3); a squashed queue top is popped and skipped
without consuming width or a function unit. The fuel argument only bounds the
recursion; the top level supplies enough for every pop. -/
def scheduleAux (fuel : Nat) (s : IQ) (fu : List Nat) (w : Nat) : List Nat :=
  match fuel with
  | 0 => []
  | fuel + 1 =>
    if w = 0 then []
    else
      match findDispatch s fu s.listOrder with
      | none => []
      | some (c, _, true) => scheduleAux fuel (popReadyTop c s) fu w
      | some (c, sn, false) =>
          sn :: scheduleAux fuel (popReadyTop c s) (fu.set c (fu.getD c 0 - 1)) (w - 1)

/-- Total population of the ready queues. -/
def totalReady (s : IQ) : Nat :=
  (s.readyInsts.map List.length).sum

/-- Modelled from the spec (section 4.3; body absent from src/):
scheduleReadyInsts for one cycle, given the free function unit counts per op
class, returning the issued sequence numbers in issue order. -/
def scheduleReadyInsts (s : IQ) (fu : List Nat) : List Nat :=
  scheduleAux (totalReady s + s.totalWidth) s fu s.totalWidth

/-- Minimum of a list of sequence numbers. -/
def listMin : List Nat → Option Nat
  | [] => none
  | x :: xs =>
    match listMin xs with
    | none => some x
    | some m => some (min x m)

/-- Ready instructions whose op class has a free function unit this cycle. -/
def readyAvail (s : IQ) (fu : List Nat) : List Nat :=
  (((List.range s.readyInsts.length).filter (fun c => fu.getD c 0 != 0)).map s.queue).flatten

/-- The oldest-first reference selection stated by the spec (section 8,
oldest-first law): repeatedly issue the globally smallest sequence number
among ready instructions whose op class still has a free function unit,
consuming one unit per issue, up to the issue width. -/
def greedyAux (w : Nat) (s : IQ) (fu : List Nat) : List Nat :=
  match w with
  | 0 => []
  | w + 1 =>
    match listMin (readyAvail s fu) with
    | none => []
    | some m =>
      match (List.range s.readyInsts.length).find?
          (fun c => fu.getD c 0 != 0 && decide (m ∈ s.queue c)) with
      | none => []
      | some c => m :: greedyAux w (popReadyTop c s) (fu.set c (fu.getD c 0 - 1))

/-- No instruction sitting in a ready queue is marked squashed. -/
@[reducible] def noSquashedReady (s : IQ) : Prop :=
  ∀ q ∈ s.readyInsts, ∀ m ∈ q, m ∉ s.squashedSet

/- ### Scheduler lemmas -/

theorem scheduleAux_length (fuel : Nat) (s : IQ) (fu : List Nat) (w : Nat) :
    (scheduleAux fuel s fu w).length ≤ w := by
  induction fuel generalizing s fu w with
  | zero => simp [scheduleAux]
  | succ fuel ih =>
    rw [scheduleAux]
    by_cases hw : w = 0
    · simp [hw]
    · rw [if_neg hw]
      match findDispatch s fu s.listOrder with
      | none => simp
      | some (c, sn, true) => exact ih _ _ _
      | some (c, sn, false) =>
        have := ih (popReadyTop c s) (fu.set c (fu.getD c 0 - 1)) (w - 1)
        simp only [List.length_cons]
        omega

theorem listMin_eq_none_iff (l : List Nat) : listMin l = none ↔ l = [] := by
  cases l with
  | nil => simp [listMin]
  | cons x xs =>
    simp only [listMin]
    cases h : listMin xs <;> simp

theorem listMin_spec (l : List Nat) (v : Nat) (h : listMin l = some v) :
    v ∈ l ∧ ∀ y ∈ l, v ≤ y := by
  induction l generalizing v with
  | nil => simp [listMin] at h
  | cons x xs ih =>
    rw [listMin] at h
    cases hm : listMin xs with
    | none =>
      rw [hm] at h
      have hx : x = v := by simpa using h
      subst hx
      have hnil : xs = [] := (listMin_eq_none_iff xs).mp hm
      subst hnil
      simp
    | some m =>
      rw [hm] at h
      have hv : min x m = v := by simpa using h
      obtain ⟨hmem, hle⟩ := ih m hm
      subst hv
      refine ⟨?_, ?_⟩
      · rcases le_total x m with hxm | hxm
        · rw [min_eq_left hxm]
          exact List.mem_cons_self x xs
        · rw [min_eq_right hxm]
          exact List.mem_cons_of_mem x hmem
      · intro y hy
        rcases List.mem_cons.mp hy with rfl | hy
        · exact min_le_left _ _
        · exact le_trans (min_le_right x m) (hle y hy)

theorem listMin_eq_some (l : List Nat) (v : Nat) (hv : v ∈ l) (hle : ∀ y ∈ l, v ≤ y) :
    listMin l = some v := by
  cases hm : listMin l with
  | none =>
    rw [listMin_eq_none_iff] at hm
    subst hm
    simp at hv
  | some u =>
    obtain ⟨hu, hule⟩ := listMin_spec l u hm
    have he : u = v := le_antisymm (hule v hv) (hle u hu)
    rw [he]

theorem find?_eq_some_of_unique (p : Nat → Bool) (l : List Nat) (c : Nat)
    (hc : c ∈ l) (hpc : p c = true) (hu : ∀ x ∈ l, p x = true → x = c) :
    l.find? p = some c := by
  induction l with
  | nil => simp at hc
  | cons a l ih =>
    by_cases hpa : p a = true
    · rw [List.find?_cons_of_pos l hpa]
      rw [hu a (List.mem_cons_self a l) hpa]
    · rw [List.find?_cons_of_neg l hpa]
      rcases List.mem_cons.mp hc with rfl | hc
      · exact absurd hpc hpa
      · exact ih hc (fun x hx hpx => hu x (List.mem_cons_of_mem a hx) hpx)

theorem mem_readyAvail (s : IQ) (fu : List Nat) (m : Nat) :
    m ∈ readyAvail s fu ↔
      ∃ c, c < s.readyInsts.length ∧ fu.getD c 0 ≠ 0 ∧ m ∈ s.queue c := by
  constructor
  · intro h
    obtain ⟨q, hq, hmq⟩ := List.mem_flatten.mp h
    obtain ⟨c, hcf, rfl⟩ := List.mem_map.mp hq
    have hcm := List.mem_filter.mp hcf
    refine ⟨c, List.mem_range.mp hcm.1, ?_, hmq⟩
    simpa using hcm.2
  · rintro ⟨c, hc, hfu, hm⟩
    refine List.mem_flatten.mpr ⟨s.queue c, ?_, hm⟩
    refine List.mem_map.mpr ⟨c, ?_, rfl⟩
    refine List.mem_filter.mpr ⟨List.mem_range.mpr hc, ?_⟩
    simpa using hfu

theorem findDispatch_spec (s : IQ) (fu : List Nat) (es : List ListOrderEntry)
    (H1 : ∀ e ∈ es, e.queueType < s.readyInsts.length ∧ s.queue e.queueType ≠ [] ∧
      e.oldestInst = (s.queue e.queueType).headD 0)
    (H2 : es.Pairwise (fun a b => a.oldestInst < b.oldestInst))
    (H3 : ∀ c, c < s.readyInsts.length → fu.getD c 0 ≠ 0 → s.queue c ≠ [] →
      ∃ e ∈ es, e.queueType = c)
    (H4 : noSquashedReady s)
    (HQ : ∀ q ∈ s.readyInsts, q.Pairwise (· < ·)) :
    (readyAvail s fu = [] ∧ findDispatch s fu es = none) ∨
    (∃ c sn, findDispatch s fu es = some (c, sn, false) ∧ c < s.readyInsts.length ∧
      fu.getD c 0 ≠ 0 ∧ (s.queue c).headD 0 = sn ∧ s.queue c ≠ [] ∧
      ∀ m ∈ readyAvail s fu, sn ≤ m) := by
  induction es with
  | nil =>
    left
    refine ⟨?_, rfl⟩
    rw [List.eq_nil_iff_forall_not_mem]
    intro m hm
    obtain ⟨c, hc, hfu, hmq⟩ := (mem_readyAvail s fu m).mp hm
    obtain ⟨e, he, _⟩ := H3 c hc hfu (List.ne_nil_of_mem hmq)
    simp at he
  | cons e es ih =>
    obtain ⟨hel, hene, heold⟩ := H1 e (List.mem_cons_self e es)
    cases hqc : s.queue e.queueType with
    | nil => exact absurd hqc hene
    | cons sn tail =>
      have hsn_mem : sn ∈ s.queue e.queueType := by
        rw [hqc]
        exact List.mem_cons_self sn tail
      have hsq : sn ∉ s.squashedSet := H4 _ (queue_mem s e.queueType hel) sn hsn_mem
      simp only [findDispatch, hqc]
      rw [if_neg hsq]
      by_cases hfu0 : fu.getD e.queueType 0 ≠ 0
      · rw [if_pos hfu0]
        right
        refine ⟨e.queueType, sn, rfl, hel, hfu0, by rw [hqc]; rfl, hene, ?_⟩
        intro m hm
        obtain ⟨c', hc', hfu', hmq'⟩ := (mem_readyAvail s fu m).mp hm
        by_cases hcc : c' = e.queueType
        · rw [hcc, hqc] at hmq'
          rcases List.mem_cons.mp hmq' with rfl | hmq'
          · exact le_refl m
          · have hpw := HQ _ (queue_mem s e.queueType hel)
            rw [hqc] at hpw
            exact le_of_lt ((List.pairwise_cons.mp hpw).1 m hmq')
        · obtain ⟨e', he', hec'⟩ := H3 c' hc' hfu' (List.ne_nil_of_mem hmq')
          rcases List.mem_cons.mp he' with rfl | he'
          · exact absurd hec'.symm hcc
          · have hlt : e.oldestInst < e'.oldestInst := (List.pairwise_cons.mp H2).1 e' he'
            obtain ⟨hel', hene', heold'⟩ := H1 e' (List.mem_cons_of_mem e he')
            have hpw' := HQ _ (queue_mem s c' hc')
            have hhm : (s.queue c').headD 0 ≤ m := by
              cases hq' : s.queue c' with
              | nil =>
                rw [hq'] at hmq'
                simp at hmq'
              | cons hh tt =>
                rw [hq'] at hmq' hpw'
                rcases List.mem_cons.mp hmq' with rfl | hmq'
                · simp
                · simp only [List.headD_cons]
                  exact le_of_lt ((List.pairwise_cons.mp hpw').1 m hmq')
            have hsneq : e.oldestInst = sn := by
              rw [heold, hqc]
              rfl
            rw [hec'] at heold'
            have hlt2 : sn < (s.queue c').headD 0 := by
              rw [← heold', ← hsneq]
              exact hlt
            exact le_trans (le_of_lt hlt2) hhm
      · rw [if_neg hfu0]
        apply ih (fun e' he' => H1 e' (List.mem_cons_of_mem e he'))
          (List.pairwise_cons.mp H2).2
        intro c hc hf hn
        obtain ⟨e', he', hec⟩ := H3 c hc hf hn
        rcases List.mem_cons.mp he' with rfl | he'
        · rw [← hec] at hf
          exact absurd hf hfu0
        · exact ⟨e', he', hec⟩

theorem popReadyTop_noSquash (c : Nat) (s : IQ) (h : noSquashedReady s) :
    noSquashedReady (popReadyTop c s) := by
  cases hq : s.queue c with
  | nil =>
    rw [popReadyTop_of_nil c s hq]
    exact h
  | cons x rest =>
    have hc : c < s.readyInsts.length := queue_ne_nil_lt s c (by rw [hq]; simp)
    have hsub : ∀ m ∈ rest, m ∈ s.queue c := by
      intro m hm
      rw [hq]
      exact List.mem_cons_of_mem x hm
    cases hrest : rest with
    | nil =>
      subst hrest
      rw [popReadyTop_of_single c x s hq]
      intro q hql m hm
      rcases List.mem_or_eq_of_mem_set hql with hmem | rfl
      · exact h q hmem m hm
      · simp at hm
    | cons y ys =>
      have hrne : rest ≠ [] := by rw [hrest]; simp
      rw [popReadyTop_of_more c x rest s hq hrne]
      intro q hql m hm
      rcases List.mem_or_eq_of_mem_set hql with hmem | rfl
      · exact h q hmem m hm
      · exact h _ (queue_mem s c hc) m (hsub m hm)

theorem scheduleAux_eq_greedy (w : Nat) : ∀ (fuel : Nat) (s : IQ) (fu : List Nat),
    w ≤ fuel → WFready s → noSquashedReady s →
    scheduleAux fuel s fu w = greedyAux w s fu := by
  induction w with
  | zero =>
    intro fuel s fu _ _ _
    cases fuel with
    | zero => rfl
    | succ f => simp [scheduleAux, greedyAux]
  | succ w ih =>
    intro fuel s fu hle hw hs
    obtain ⟨f, rfl⟩ : ∃ f, fuel = f + 1 := ⟨fuel - 1, by omega⟩
    obtain ⟨WQ, DJ, ND, EP, CV, LO⟩ := hw
    have hspec := findDispatch_spec s fu s.listOrder EP LO (fun c hc hf hn => CV c hc hn) hs WQ
    rcases hspec with ⟨hra, hfd⟩ | ⟨c, sn, hfd, hclen, hfu0, hhead, hqne, hmin⟩
    · rw [scheduleAux, greedyAux, if_neg (by omega : ¬ (w + 1 = 0)), hfd, hra]
      simp [listMin]
    · have hsn_q : sn ∈ s.queue c := by
        rw [← hhead]
        exact headD_mem _ 0 hqne
      have hsn_mem_ra : sn ∈ readyAvail s fu :=
        (mem_readyAvail s fu sn).mpr ⟨c, hclen, hfu0, hsn_q⟩
      have hlm : listMin (readyAvail s fu) = some sn := listMin_eq_some _ _ hsn_mem_ra hmin
      have hfind : (List.range s.readyInsts.length).find?
          (fun c' => fu.getD c' 0 != 0 && decide (sn ∈ s.queue c')) = some c := by
        apply find?_eq_some_of_unique
        · exact List.mem_range.mpr hclen
        · simp only [Bool.and_eq_true, bne_iff_ne, ne_eq, decide_eq_true_eq]
          exact ⟨hfu0, hsn_q⟩
        · intro x hx hpx
          simp only [Bool.and_eq_true, bne_iff_ne, ne_eq, decide_eq_true_eq] at hpx
          by_contra hxc
          exact DJ x (List.mem_range.mp hx) c hclen sn hpx.2 hxc hsn_q
      rw [scheduleAux, greedyAux, if_neg (by omega : ¬ (w + 1 = 0)), hfd, hlm]
      dsimp only
      rw [hfind]
      dsimp only
      rw [Nat.add_sub_cancel]
      congr 1
      exact ih f (popReadyTop c s) (fu.set c (fu.getD c 0 - 1)) (by omega)
        (popReadyTop_WF c s ⟨WQ, DJ, ND, EP, CV, LO⟩) (popReadyTop_noSquash c s hs)

/- ### Dependency graph operations -/

/-- Modelled from the spec (section 4.2, createDependency, declared at
inst_queue.hh:451; body absent from src/): for each source register, a
satisfied source (scoreboard bit set) is counted off; otherwise the
instruction is appended to the tail of that register's dependency list.
pendingSrcs records how many sources remain unsatisfied; can_issue holds when
it is zero. cdStep is the per-source-register step of that loop. -/
def cdStep (s : IQ) (sn : Nat) (acc : (Nat → List Nat) × Nat) (r : Nat) :
    (Nat → List Nat) × Nat :=
  if s.regScoreboard r then acc
  else (fun r' => if r' = r then acc.1 r' ++ [sn] else acc.1 r', acc.2 + 1)

/-- Modelled from the spec (section 4.2, createDependency, declared at
inst_queue.hh:451; body absent from src/): fold cdStep over the source
registers and record the pending-source count. -/
def createDependency (env : Nat → InstInfo) (sn : Nat) (s : IQ) : IQ :=
  let res := (env sn).srcRegs.foldl (cdStep s sn) (s.dependGraph, 0)
  { s with dependGraph := res.1,
           pendingSrcs := fun m => if m = sn then res.2 else s.pendingSrcs m }

/-- Modelled from the spec (section 4.2, addToDependents, declared at
inst_queue.hh:448; body absent from src/): clear the scoreboard bit of every
destination register of the new producer. -/
def addToDependents (env : Nat → InstInfo) (sn : Nat) (s : IQ) : IQ :=
  { s with regScoreboard := fun r =>
      if r ∈ (env sn).destRegs then false else s.regScoreboard r }

/-- Modelled from the spec (section 4.2, the treatment of one drained consumer
during wakeDependents; body absent from src/): decrement the consumer's
pending-source count and addIfReady it. -/
def wakeStep (env : Nat → InstInfo) (st : IQ) (m : Nat) : IQ :=
  let st' := { st with pendingSrcs := fun m' =>
    if m' = m then st.pendingSrcs m - 1 else st.pendingSrcs m' }
  addIfReady env m st'

/-- Modelled from the spec (section 4.2, wakeDependents restricted to one
destination register; body absent from src/): set the scoreboard bit, drain
the register's consumer list, and apply wakeStep to each drained consumer. -/
def wakeOneReg (env : Nat → InstInfo) (r : Nat) (s : IQ) : IQ :=
  let cs := s.dependGraph r
  let s1 := { s with
    regScoreboard := fun r' => if r' = r then true else s.regScoreboard r',
    dependGraph := fun r' => if r' = r then [] else s.dependGraph r' }
  cs.foldl (wakeStep env) s1

/-- Modelled from the spec (section 4.2, wakeDependents, declared at
inst_queue.hh:188; body absent from src/): wake the consumers of every
destination register of the completed instruction. -/
def wakeDependents (env : Nat → InstInfo) (sn : Nat) (s : IQ) : IQ :=
  (env sn).destRegs.foldl (fun st r => wakeOneReg env r st) s

/- ### Admission, commit and squash -/

/-- Modelled from the spec (section 4.1, insert, declared at inst_queue.hh:152;
body absent from src/): take an IQ entry (decrement freeEntries, increment the
thread's count), append to the thread's instruction window, register the
instruction as a consumer and as a producer, then addIfReady. -/
def insert (env : Nat → InstInfo) (sn tid : Nat) (s : IQ) : IQ :=
  let s1 := { s with freeEntries := s.freeEntries - 1,
                     count := s.count.set tid (s.count.getD tid 0 + 1),
                     instList := s.instList.set tid (s.instList.getD tid [] ++ [sn]) }
  addIfReady env sn (addToDependents env sn (createDependency env sn s1))

/-- Modelled from the spec (section 4.1, insertNonSpec, declared at
inst_queue.hh:155; body absent from src/): same bookkeeping as insert but the
instruction enters the non-speculative map and never a ready queue. -/
def insertNonSpec (env : Nat → InstInfo) (sn tid : Nat) (s : IQ) : IQ :=
  let s1 := { s with freeEntries := s.freeEntries - 1,
                     count := s.count.set tid (s.count.getD tid 0 + 1),
                     instList := s.instList.set tid (s.instList.getD tid [] ++ [sn]),
                     nonSpecInsts := sn :: s.nonSpecInsts }
  addToDependents env sn (createDependency env sn s1)

/-- Modelled from the spec (section 4.1, advanceTail, declared at
inst_queue.hh:167; body absent from src/): only updates the SMT counters and
the window; no dependency bookkeeping. -/
def advanceTail (sn tid : Nat) (s : IQ) : IQ :=
  { s with freeEntries := s.freeEntries - 1,
           count := s.count.set tid (s.count.getD tid 0 + 1),
           instList := s.instList.set tid (s.instList.getD tid [] ++ [sn]) }

/-- Modelled from the spec (section 4.7, commit, declared at inst_queue.hh:185;
body absent from src/): remove from the head of the thread's instruction list
the instructions with sequence number at most sn, incrementing freeEntries and
decrementing the thread's count once per removed instruction; no
dependency-graph cleanup. -/
def commit (sn tid : Nat) (s : IQ) : IQ :=
  let l := s.instList.getD tid []
  let removed := l.takeWhile (fun m => decide (m ≤ sn))
  { s with instList := s.instList.set tid (l.dropWhile (fun m => decide (m ≤ sn))),
           freeEntries := s.freeEntries + removed.length,
           count := s.count.set tid (s.count.getD tid 0 - removed.length) }

/-- Modelled from the spec (section 4.8 steps 1 to 3 for a single squashed
instruction; doSquash body absent from src/, declared at inst_queue.hh:225):
drop the instruction from the non-speculative map; when it has not issued,
remove it from the dependency lists of its source registers and mark it
squashed (its ready queue entry is removed lazily); release its IQ entry. -/
def squashOne (env : Nat → InstInfo) (tid sn : Nat) (s : IQ) : IQ :=
  let s1 := { s with nonSpecInsts := s.nonSpecInsts.filter (fun m => m != sn) }
  let s2 :=
    if (env sn).isIssued then s1
    else
      { s1 with
        dependGraph := fun r =>
          if r ∈ (env sn).srcRegs then (s1.dependGraph r).filter (fun m => m != sn)
          else s1.dependGraph r,
        squashedSet := sn :: s1.squashedSet }
  { s2 with freeEntries := s2.freeEntries + 1,
            count := s2.count.set tid (s2.count.getD tid 0 - 1) }

/-- Modelled from the spec (section 4.8; body absent from src/): the squash
walk over the reversed instruction list of the thread (youngest first),
dropping every instruction strictly younger than the squash sequence number
and stopping at the first that is not. Returns the kept part, still
reversed, and the updated state. -/
def doSquashRev (env : Nat → InstInfo) (tid sq : Nat) :
    List Nat → IQ → List Nat × IQ
  | [], s => ([], s)
  | sn :: rest, s =>
    if sq < sn then doSquashRev env tid sq rest (squashOne env tid sn s)
    else (sn :: rest, s)

/-- Modelled from the spec (section 4.8, doSquash declared at
inst_queue.hh:225; body absent from src/): squash thread tid back to sequence
number sq, running the walk to completion within the call. -/
def doSquash (env : Nat → InstInfo) (tid sq : Nat) (s : IQ) : IQ :=
  let res := doSquashRev env tid sq (s.instList.getD tid []).reverse s
  { res.2 with instList := res.2.instList.set tid res.1.reverse }

/- ### Memory instruction hooks -/

/-- Modelled from the spec (section 4.5, addReadyMemInst declared at
inst_queue.hh:191; body absent from src/): route a register- and memory-ready
memory instruction into the ready queue of its op class. -/
def addReadyMemInst (env : Nat → InstInfo) (sn : Nat) (s : IQ) : IQ :=
  pushReady (env sn).opClass sn s

/-- Modelled from the spec (section 4.5, rescheduleMemInst declared at
inst_queue.hh:197; body absent from src/): remove the instruction from its
ready queue and mark it awaiting replay. -/
def rescheduleMemInst (env : Nat → InstInfo) (sn : Nat) (s : IQ) : IQ :=
  let s1 := eraseReady (env sn).opClass sn s
  { s1 with awaitReplay :=
      if sn ∈ s1.awaitReplay then s1.awaitReplay else sn :: s1.awaitReplay }

/-- Modelled from the spec (section 4.5, replayMemInst declared at
inst_queue.hh:200; body absent from src/): clear the awaiting-replay mark and
re-admit the instruction to its ready queue by the same routing as
addReadyMemInst. -/
def replayMemInst (env : Nat → InstInfo) (sn : Nat) (s : IQ) : IQ :=
  let s1 := { s with awaitReplay := s.awaitReplay.filter (fun m => m != sn) }
  addReadyMemInst env sn s1

/-- Modelled from the spec (section 4.5, violation declared at
inst_queue.hh:206; body absent from src/): forward the store and the faulting
load to the memory dependence unit of the store's thread; nothing else. -/
def violation (env : Nat → InstInfo) (store load : Nat) (s : IQ) : IQ :=
  { s with memDepUnit := fun t =>
      if t = (env store).tid then (store, load) :: s.memDepUnit t
      else s.memDepUnit t }

/- ### Code present in the header -/

/-- From the source header, inst_queue.hh:218: the inline body
freeEntries += num, where freeEntries is a 32-bit unsigned and num a signed
int; the unsigned wraparound is made explicit with a modulus. -/
def updateFreeEntries (num : Int) (s : IQ) : IQ :=
  { s with freeEntries := (((s.freeEntries : Int) + num) % (2 ^ 32 : Int)).toNat }

/-- From the source header, inst_queue.hh:215: getCount. -/
def getCount (tid : Nat) (s : IQ) : Nat :=
  s.count.getD tid 0

/-- A DynInst as the ready queue comparator sees it (inst_queue.hh:273):
its sequence number and its thread. -/
structure PQInst where
  seqNum : Nat
  tid : Nat
deriving DecidableEq

/-- From the source header, inst_queue.hh:272 to 277: pqCompare, the struct
used as the comparison of the std priority queue, returns
lhs seqNum greater than rhs seqNum. -/
def pqCompare (lhs rhs : PQInst) : Bool :=
  rhs.seqNum < lhs.seqNum

/-- Top element of a std priority queue holding the given instructions: a
greatest element in the strict weak order pqCompare, computed by scanning. -/
def pqTop (x : PQInst) : List PQInst → PQInst
  | [] => x
  | y :: ys => if pqCompare x y then pqTop y ys else pqTop x ys

/- ### Frame lemmas: fields untouched by the ready queue operations -/

/-- Equality of all state components other than the ready queues and the age
order list. -/
def restEq (s t : IQ) : Prop :=
  s.numEntries = t.numEntries ∧ s.totalWidth = t.totalWidth ∧ s.instList = t.instList ∧
  s.nonSpecInsts = t.nonSpecInsts ∧ s.dependGraph = t.dependGraph ∧
  s.regScoreboard = t.regScoreboard ∧ s.pendingSrcs = t.pendingSrcs ∧
  s.squashedSet = t.squashedSet ∧ s.awaitReplay = t.awaitReplay ∧
  s.count = t.count ∧ s.freeEntries = t.freeEntries ∧ s.memDepUnit = t.memDepUnit

theorem restEq_refl (s : IQ) : restEq s s :=
  ⟨rfl, rfl, rfl, rfl, rfl, rfl, rfl, rfl, rfl, rfl, rfl, rfl⟩

theorem pushReady_restEq (c sn : Nat) (s : IQ) : restEq (pushReady c sn s) s := by
  cases hq : s.queue c with
  | nil =>
    rw [pushReady_of_nil c sn s hq]
    exact restEq_refl s
  | cons x xs =>
    by_cases hlt : sn < x
    · rw [pushReady_of_newmin c sn x xs s hq hlt]
      exact restEq_refl s
    · rw [pushReady_of_notmin c sn x xs s hq hlt]
      exact restEq_refl s

theorem popReadyTop_restEq (c : Nat) (s : IQ) : restEq (popReadyTop c s) s := by
  cases hq : s.queue c with
  | nil =>
    rw [popReadyTop_of_nil c s hq]
    exact restEq_refl s
  | cons x rest =>
    cases hrest : rest with
    | nil =>
      subst hrest
      rw [popReadyTop_of_single c x s hq]
      exact restEq_refl s
    | cons y ys =>
      rw [popReadyTop_of_more c x rest s hq (by rw [hrest]; simp)]
      exact restEq_refl s

theorem addIfReady_restEq (env : Nat → InstInfo) (sn : Nat) (s : IQ) :
    restEq (addIfReady env sn s) s := by
  unfold addIfReady
  split
  · exact pushReady_restEq _ sn s
  · exact restEq_refl s

/- ### Claim C7: ready queues are min-priority queues by sequence number -/

theorem pqTop_min (x : PQInst) (l : List PQInst) :
    pqTop x l ∈ x :: l ∧ ∀ z ∈ x :: l, (pqTop x l).seqNum ≤ z.seqNum := by
  induction l generalizing x with
  | nil =>
    refine ⟨by simp [pqTop], ?_⟩
    intro z hz
    rcases List.mem_cons.mp hz with rfl | hz
    · exact le_refl _
    · simp at hz
  | cons y ys ih =>
    rw [pqTop]
    by_cases h : pqCompare x y
    · obtain ⟨hm, hle⟩ := ih y
      rw [if_pos h]
      have hyx : y.seqNum < x.seqNum := by simpa [pqCompare] using h
      refine ⟨?_, ?_⟩
      · rcases List.mem_cons.mp hm with he | hm
        · rw [he]
          exact List.mem_cons_of_mem x (List.mem_cons_self y ys)
        · exact List.mem_cons_of_mem x (List.mem_cons_of_mem y hm)
      · intro z hz
        rcases List.mem_cons.mp hz with rfl | hz
        · exact le_trans (hle y (List.mem_cons_self y ys)) (le_of_lt hyx)
        · exact hle z hz
    · obtain ⟨hm, hle⟩ := ih x
      rw [if_neg h]
      have hxy : x.seqNum ≤ y.seqNum := by
        simpa [pqCompare] using h
      refine ⟨?_, ?_⟩
      · rcases List.mem_cons.mp hm with he | hm
        · rw [he]
          exact List.mem_cons_self x (y :: ys)
        · exact List.mem_cons_of_mem x (List.mem_cons_of_mem y hm)
      · intro z hz
        rcases List.mem_cons.mp hz with rfl | hz
        · exact hle z (List.mem_cons_self z ys)
        · rcases List.mem_cons.mp hz with rfl | hz
          · exact le_trans (hle x (List.mem_cons_self x ys)) hxy
          · exact hle z (List.mem_cons_of_mem x hz)

/-- C7: for every op class, the ready queue ordered by the source comparator
pqCompare (inst_queue.hh:272, lhs seqNum greater than rhs seqNum) is a
min-priority queue by sequence number: the std priority queue top, a maximal
element in the comparator order, is one of the queued instructions and its
sequence number is at most that of every instruction in the queue, regardless
of their threads and of insertion order. -/
theorem C7_ready_queue_is_min_priority (x : PQInst) (l : List PQInst) :
    pqTop x l ∈ x :: l ∧ ∀ z ∈ x :: l, (pqTop x l).seqNum ≤ z.seqNum :=
  pqTop_min x l

/-- C7 witness: the theorem applied to a concrete three-element queue spanning
two threads. -/
theorem C7_ready_queue_is_min_priority_witness :
    (pqTop ⟨5, 0⟩ [⟨3, 1⟩, ⟨9, 0⟩]).seqNum ≤ (⟨9, 0⟩ : PQInst).seqNum ∧
    pqTop ⟨5, 0⟩ [⟨3, 1⟩, ⟨9, 0⟩] = ⟨3, 1⟩ :=
  ⟨(C7_ready_queue_is_min_priority ⟨5, 0⟩ [⟨3, 1⟩, ⟨9, 0⟩]).2 ⟨9, 0⟩ (by simp), by rfl⟩

/- ### Claim C10: updateFreeEntries -/

/-- Concrete state with no free entries, for the C10 counterexample. -/
def exC10 : IQ :=
  { numEntries := 4, totalWidth := 2, instList := [[]], readyInsts := [[], []],
    listOrder := [], nonSpecInsts := [], dependGraph := fun _ => [],
    regScoreboard := fun _ => false, pendingSrcs := fun _ => 0,
    squashedSet := [], awaitReplay := [], count := [4], freeEntries := 0,
    memDepUnit := fun _ => [] }

/-- C10 counterexample: updateFreeEntries does not increase freeEntries by
exactly num for every representable int; at freeEntries = 0 and num = -1 the
unsigned wraparound makes freeEntries 4294967295, not -1. -/
theorem C10_counterexample :
    ¬ (((updateFreeEntries (-1) exC10).freeEntries : Int)
        = (exC10.freeEntries : Int) + (-1)) := by
  decide

/-- C10 (amended): updateFreeEntries num sets freeEntries to
(freeEntries + num) mod 2 to the 32 — exactly an increase by num whenever the
sum stays in unsigned range — and changes nothing else: count and every other
field are untouched; and every representable num other than zero changes
freeEntries with no matching change to any count entry. -/
theorem C10_updateFreeEntries (num : Int) (s : IQ)
    (hlo : -2 ^ 31 ≤ num) (hhi : num < 2 ^ 31) :
    ((updateFreeEntries num s).freeEntries : Int)
        = ((s.freeEntries : Int) + num) % 2 ^ 32 ∧
    (0 ≤ (s.freeEntries : Int) + num → (s.freeEntries : Int) + num < 2 ^ 32 →
      ((updateFreeEntries num s).freeEntries : Int) = (s.freeEntries : Int) + num) ∧
    (num ≠ 0 → (updateFreeEntries num s).freeEntries ≠ s.freeEntries) ∧
    (updateFreeEntries num s).count = s.count ∧
    (updateFreeEntries num s).numEntries = s.numEntries ∧
    (updateFreeEntries num s).totalWidth = s.totalWidth ∧
    (updateFreeEntries num s).instList = s.instList ∧
    (updateFreeEntries num s).readyInsts = s.readyInsts ∧
    (updateFreeEntries num s).listOrder = s.listOrder ∧
    (updateFreeEntries num s).nonSpecInsts = s.nonSpecInsts ∧
    (updateFreeEntries num s).dependGraph = s.dependGraph ∧
    (updateFreeEntries num s).regScoreboard = s.regScoreboard ∧
    (updateFreeEntries num s).pendingSrcs = s.pendingSrcs ∧
    (updateFreeEntries num s).squashedSet = s.squashedSet ∧
    (updateFreeEntries num s).awaitReplay = s.awaitReplay ∧
    (updateFreeEntries num s).memDepUnit = s.memDepUnit := by
  have hmod : ((updateFreeEntries num s).freeEntries : Int)
      = ((s.freeEntries : Int) + num) % 2 ^ 32 := by
    simp only [updateFreeEntries]
    exact Int.toNat_of_nonneg (Int.emod_nonneg _ (by norm_num))
  refine ⟨hmod, ?_, ?_, rfl, rfl, rfl, rfl, rfl, rfl, rfl, rfl, rfl, rfl, rfl, rfl, rfl⟩
  · intro h0 hflt
    rw [hmod]
    exact Int.emod_eq_of_lt h0 hflt
  · intro hnum heq
    have : ((updateFreeEntries num s).freeEntries : Int) = (s.freeEntries : Int) := by
      exact_mod_cast congrArg (Nat.cast : Nat → Int) heq
    rw [hmod] at this
    omega

/-- C10 witness: the amended theorem applied at freeEntries 3 and num 5. -/
theorem C10_updateFreeEntries_witness :
    ((updateFreeEntries 5 { exC10 with freeEntries := 3 }).freeEntries : Int)
      = (({ exC10 with freeEntries := 3 } : IQ).freeEntries : Int) + 5 :=
  ((C10_updateFreeEntries 5 { exC10 with freeEntries := 3 }
      (by norm_num) (by norm_num)).2.1) (by norm_num) (by norm_num)

/- ### Claim C9: violation only notifies the memory dependence unit -/

/-- C9: violation forwards the store and the faulting load to the memory
dependence unit of the store's thread, and leaves every IQ-owned structure
unchanged: the instruction windows, dependency graph, scoreboard, ready
queues, age order list, non-speculative map, counts and free entries are the
same before and after the call; in particular nothing gets squashed. -/
theorem C9_violation_frame (env : Nat → InstInfo) (store load : Nat) (s : IQ) :
    (violation env store load s).memDepUnit ((env store).tid)
        = (store, load) :: s.memDepUnit ((env store).tid) ∧
    (∀ t, t ≠ (env store).tid →
      (violation env store load s).memDepUnit t = s.memDepUnit t) ∧
    (violation env store load s).instList = s.instList ∧
    (violation env store load s).dependGraph = s.dependGraph ∧
    (violation env store load s).regScoreboard = s.regScoreboard ∧
    (violation env store load s).readyInsts = s.readyInsts ∧
    (violation env store load s).listOrder = s.listOrder ∧
    (violation env store load s).nonSpecInsts = s.nonSpecInsts ∧
    (violation env store load s).count = s.count ∧
    (violation env store load s).freeEntries = s.freeEntries ∧
    (violation env store load s).squashedSet = s.squashedSet ∧
    (violation env store load s).pendingSrcs = s.pendingSrcs ∧
    (violation env store load s).awaitReplay = s.awaitReplay ∧
    (violation env store load s).numEntries = s.numEntries ∧
    (violation env store load s).totalWidth = s.totalWidth := by
  refine ⟨?_, ?_, rfl, rfl, rfl, rfl, rfl, rfl, rfl, rfl, rfl, rfl, rfl, rfl, rfl⟩
  · simp [violation]
  · intro t ht
    simp [violation, ht]

/-- C9 witness: the theorem applied to a concrete store and load on a concrete
state, reading off the forwarded pair and one untouched structure. -/
theorem C9_violation_frame_witness :
    (violation (fun _ => ⟨0, 0, [], [], false, false⟩) 48 50 exC10).memDepUnit 0
        = [(48, 50)] ∧
    (violation (fun _ => ⟨0, 0, [], [], false, false⟩) 48 50 exC10).readyInsts
        = exC10.readyInsts := by
  have h := C9_violation_frame (fun _ => ⟨0, 0, [], [], false, false⟩) 48 50 exC10
  exact ⟨h.1, h.2.2.2.2.2.1⟩

/- ### Claim C5: commit -/

theorem takeWhile_le_eq_filter (sq : Nat) (l : List Nat) (hs : l.Pairwise (· < ·)) :
    l.takeWhile (fun m => decide (m ≤ sq)) = l.filter (fun m => decide (m ≤ sq)) := by
  induction l with
  | nil => rfl
  | cons x xs ih =>
    rcases List.pairwise_cons.mp hs with ⟨hx, hxs⟩
    by_cases h : x ≤ sq
    · rw [List.takeWhile_cons_of_pos (by simpa using h),
        List.filter_cons_of_pos (by simpa using h), ih hxs]
    · rw [List.takeWhile_cons_of_neg (by simpa using h),
        List.filter_cons_of_neg (by simpa using h)]
      symm
      rw [List.filter_eq_nil_iff]
      intro m hm
      simp only [decide_eq_true_eq]
      intro hle
      exact h (le_trans (le_of_lt (hx m hm)) hle)

theorem dropWhile_le_gt (sq : Nat) (l : List Nat) (hs : l.Pairwise (· < ·)) :
    ∀ m ∈ l.dropWhile (fun m => decide (m ≤ sq)), sq < m := by
  induction l with
  | nil => simp
  | cons x xs ih =>
    rcases List.pairwise_cons.mp hs with ⟨hx, hxs⟩
    by_cases h : x ≤ sq
    · rw [List.dropWhile_cons_of_pos (by simpa using h)]
      exact ih hxs
    · rw [List.dropWhile_cons_of_neg (by simpa using h)]
      intro m hm
      rcases List.mem_cons.mp hm with rfl | hm
      · exact lt_of_not_le h
      · exact lt_trans (lt_of_not_le h) (hx m hm)

/-- C5: commit sn tid removes from the head of the thread's window exactly the
instructions with sequence number at most sn — the removed head segment
(takeWhile) equals the set of all such instructions (filter), and afterwards
every instruction left in the window is younger than sn — incrementing
freeEntries and decrementing count once per removed instruction, with no
dependency-graph or scoreboard cleanup and no effect on any other structure
or on other threads' windows. -/
theorem C5_commit (sn tid : Nat) (s : IQ)
    (hs : (s.instList.getD tid []).Pairwise (· < ·))
    (htid : tid < s.instList.length) :
    ((s.instList.getD tid []).takeWhile (fun m => decide (m ≤ sn))
        = (s.instList.getD tid []).filter (fun m => decide (m ≤ sn))) ∧
    (∀ m ∈ (commit sn tid s).instList.getD tid [], ¬ m ≤ sn) ∧
    ((commit sn tid s).freeEntries
        = s.freeEntries + ((s.instList.getD tid []).filter (fun m => decide (m ≤ sn))).length) ∧
    ((commit sn tid s).count.getD tid 0
        = s.count.getD tid 0 - ((s.instList.getD tid []).filter (fun m => decide (m ≤ sn))).length) ∧
    (∀ t, t ≠ tid → (commit sn tid s).instList.getD t [] = s.instList.getD t []) ∧
    (∀ t, t ≠ tid → (commit sn tid s).count.getD t 0 = s.count.getD t 0) ∧
    (commit sn tid s).dependGraph = s.dependGraph ∧
    (commit sn tid s).regScoreboard = s.regScoreboard ∧
    (commit sn tid s).readyInsts = s.readyInsts ∧
    (commit sn tid s).listOrder = s.listOrder ∧
    (commit sn tid s).nonSpecInsts = s.nonSpecInsts ∧
    (commit sn tid s).squashedSet = s.squashedSet ∧
    (commit sn tid s).numEntries = s.numEntries := by
  have htake := takeWhile_le_eq_filter sn (s.instList.getD tid []) hs
  refine ⟨htake, ?_, ?_, ?_, ?_, ?_, rfl, rfl, rfl, rfl, rfl, rfl, rfl⟩
  · intro m hm
    have : (commit sn tid s).instList.getD tid []
        = (s.instList.getD tid []).dropWhile (fun m => decide (m ≤ sn)) := by
      simp only [commit]
      exact getD_set_self _ _ _ _ htid
    rw [this] at hm
    exact not_le_of_lt (dropWhile_le_gt sn _ hs m hm)
  · simp only [commit]
    rw [htake]
  · simp only [commit]
    by_cases hcount : tid < s.count.length
    · rw [getD_set_self _ _ _ _ hcount, htake]
    · rw [List.set_eq_of_length_le (by omega)]
      have hz : s.count.getD tid 0 = 0 := by
        have hn : s.count[tid]? = none := List.getElem?_eq_none (le_of_not_lt hcount)
        simp [List.getD_eq_getElem?_getD, hn]
      omega
  · intro t ht
    simp only [commit]
    exact getD_set_ne _ _ _ _ _ (fun h => ht h.symm)
  · intro t ht
    simp only [commit]
    exact getD_set_ne _ _ _ _ _ (fun h => ht h.symm)

/-- Concrete state for the C5 witness: thread 0 window holds 1, 2, 7. -/
def exC5 : IQ :=
  { numEntries := 8, totalWidth := 2, instList := [[1, 2, 7]], readyInsts := [[]],
    listOrder := [], nonSpecInsts := [], dependGraph := fun _ => [],
    regScoreboard := fun _ => false, pendingSrcs := fun _ => 0,
    squashedSet := [], awaitReplay := [], count := [3], freeEntries := 5,
    memDepUnit := fun _ => [] }

/-- C5 witness: the theorem at sn 5, tid 0 on the concrete state; instruction 7
survives, the counters move by the two removed instructions. -/
theorem C5_commit_witness :
    (¬ (7 : Nat) ≤ 5) ∧ (commit 5 0 exC5).freeEntries = 5 + 2 := by
  have h := C5_commit 5 0 exC5 (by decide) (by decide)
  refine ⟨h.2.1 7 (by decide), ?_⟩
  rw [h.2.2.1]
  rfl

/- ### Claim C3: the accounting invariant -/

/-- Accounting invariant (spec invariant 1): used entries of all threads plus
the free entries equal the capacity. -/
@[reducible] def sumInv (s : IQ) : Prop :=
  s.count.sum + s.freeEntries = s.numEntries

theorem restEq_count {s t : IQ} (h : restEq s t) : s.count = t.count :=
  h.2.2.2.2.2.2.2.2.2.1

theorem restEq_free {s t : IQ} (h : restEq s t) : s.freeEntries = t.freeEntries :=
  h.2.2.2.2.2.2.2.2.2.2.1

theorem restEq_numEntries {s t : IQ} (h : restEq s t) : s.numEntries = t.numEntries :=
  h.1

theorem sum_set_getD (l : List Nat) (tid v : Nat) (h : tid < l.length) :
    (l.set tid v).sum + l.getD tid 0 = l.sum + v := by
  induction l generalizing tid with
  | nil => simp at h
  | cons x xs ih =>
    cases tid with
    | zero =>
      simp only [List.set, List.getD_cons_zero, List.sum_cons]
      omega
    | succ n =>
      simp only [List.set_cons_succ, List.sum_cons, List.getD_cons_succ]
      have := ih n (by simpa using h)
      omega

theorem addIfReady_counters (env : Nat → InstInfo) (sn : Nat) (s : IQ) :
    (addIfReady env sn s).count = s.count ∧
    (addIfReady env sn s).freeEntries = s.freeEntries ∧
    (addIfReady env sn s).numEntries = s.numEntries := by
  have h := addIfReady_restEq env sn s
  exact ⟨restEq_count h, restEq_free h, restEq_numEntries h⟩

theorem insert_counters (env : Nat → InstInfo) (sn tid : Nat) (s : IQ) :
    (insert env sn tid s).count = s.count.set tid (s.count.getD tid 0 + 1) ∧
    (insert env sn tid s).freeEntries = s.freeEntries - 1 ∧
    (insert env sn tid s).numEntries = s.numEntries := by
  obtain ⟨hc, hf, hn⟩ := addIfReady_counters env sn
    (addToDependents env sn (createDependency env sn
      { s with freeEntries := s.freeEntries - 1,
               count := s.count.set tid (s.count.getD tid 0 + 1),
               instList := s.instList.set tid (s.instList.getD tid [] ++ [sn]) }))
  exact ⟨hc, hf, hn⟩

theorem squashOne_counters (env : Nat → InstInfo) (tid sn : Nat) (s : IQ) :
    (squashOne env tid sn s).count = s.count.set tid (s.count.getD tid 0 - 1) ∧
    (squashOne env tid sn s).freeEntries = s.freeEntries + 1 ∧
    (squashOne env tid sn s).numEntries = s.numEntries := by
  by_cases hI : (env sn).isIssued
  · simp [squashOne, hI]
  · simp [squashOne, hI]

theorem sumInv_insert (env : Nat → InstInfo) (sn tid : Nat) (s : IQ)
    (hinv : sumInv s) (htid : tid < s.count.length) (hfree : 0 < s.freeEntries) :
    sumInv (insert env sn tid s) := by
  obtain ⟨hc, hf, hn⟩ := insert_counters env sn tid s
  unfold sumInv at hinv ⊢
  rw [hc, hf, hn]
  have := sum_set_getD s.count tid (s.count.getD tid 0 + 1) htid
  omega

theorem sumInv_insertNonSpec (env : Nat → InstInfo) (sn tid : Nat) (s : IQ)
    (hinv : sumInv s) (htid : tid < s.count.length) (hfree : 0 < s.freeEntries) :
    sumInv (insertNonSpec env sn tid s) := by
  unfold sumInv at hinv ⊢
  have hc : (insertNonSpec env sn tid s).count
      = s.count.set tid (s.count.getD tid 0 + 1) := rfl
  have hf : (insertNonSpec env sn tid s).freeEntries = s.freeEntries - 1 := rfl
  have hn : (insertNonSpec env sn tid s).numEntries = s.numEntries := rfl
  rw [hc, hf, hn]
  have := sum_set_getD s.count tid (s.count.getD tid 0 + 1) htid
  omega

theorem sumInv_advanceTail (sn tid : Nat) (s : IQ)
    (hinv : sumInv s) (htid : tid < s.count.length) (hfree : 0 < s.freeEntries) :
    sumInv (advanceTail sn tid s) := by
  unfold sumInv at hinv ⊢
  have := sum_set_getD s.count tid (s.count.getD tid 0 + 1) htid
  simp only [advanceTail]
  omega

theorem sumInv_commit (sn tid : Nat) (s : IQ)
    (hinv : sumInv s) (htid : tid < s.count.length)
    (hwin : (s.instList.getD tid []).length ≤ s.count.getD tid 0) :
    sumInv (commit sn tid s) := by
  unfold sumInv at hinv ⊢
  have hk : ((s.instList.getD tid []).takeWhile (fun m => decide (m ≤ sn))).length
      ≤ s.count.getD tid 0 :=
    le_trans (List.Sublist.length_le (List.takeWhile_sublist _)) hwin
  have := sum_set_getD s.count tid
    (s.count.getD tid 0
      - ((s.instList.getD tid []).takeWhile (fun m => decide (m ≤ sn))).length) htid
  simp only [commit]
  omega

theorem doSquashRev_sumInv (env : Nat → InstInfo) (tid sq : Nat) (l : List Nat) (s : IQ)
    (htid : tid < s.count.length) (hlen : l.length ≤ s.count.getD tid 0)
    (hinv : sumInv s) : sumInv (doSquashRev env tid sq l s).2 := by
  induction l generalizing s with
  | nil => simpa [doSquashRev] using hinv
  | cons sn rest ih =>
    rw [doSquashRev]
    by_cases h : sq < sn
    · rw [if_pos h]
      obtain ⟨hc, hf, hn⟩ := squashOne_counters env tid sn s
      have hpos : 1 ≤ s.count.getD tid 0 := by
        simp only [List.length_cons] at hlen
        omega
      have hsum := sum_set_getD s.count tid (s.count.getD tid 0 - 1) htid
      apply ih
      · rw [hc, List.length_set]
        exact htid
      · rw [hc, getD_set_self _ _ _ _ htid]
        simp only [List.length_cons] at hlen
        omega
      · unfold sumInv at hinv ⊢
        rw [hc, hf, hn]
        omega
    · rw [if_neg h]
      exact hinv

theorem sumInv_doSquash (env : Nat → InstInfo) (tid sq : Nat) (s : IQ)
    (hinv : sumInv s) (htid : tid < s.count.length)
    (hwin : (s.instList.getD tid []).length ≤ s.count.getD tid 0) :
    sumInv (doSquash env tid sq s) := by
  have h := doSquashRev_sumInv env tid sq (s.instList.getD tid []).reverse s htid
    (by rw [List.length_reverse]; exact hwin) hinv
  exact h

/-- C3: at any state satisfying it, the accounting invariant — the sum of the
per-thread counts plus freeEntries equals numEntries — is preserved by every
IQ entry-management operation: insert, insertNonSpec, advanceTail, commit and
squash (run to completion), under the caller-enforced admission precondition
that the IQ is not full and the basic window-accounting bounds. -/
theorem C3_accounting (env : Nat → InstInfo) (sn tid sq : Nat) (s : IQ)
    (hinv : sumInv s) (htid : tid < s.count.length) (hfree : 0 < s.freeEntries)
    (hwin : (s.instList.getD tid []).length ≤ s.count.getD tid 0) :
    sumInv (insert env sn tid s) ∧ sumInv (insertNonSpec env sn tid s) ∧
    sumInv (advanceTail sn tid s) ∧ sumInv (commit sn tid s) ∧
    sumInv (doSquash env tid sq s) :=
  ⟨sumInv_insert env sn tid s hinv htid hfree,
   sumInv_insertNonSpec env sn tid s hinv htid hfree,
   sumInv_advanceTail sn tid s hinv htid hfree,
   sumInv_commit sn tid s hinv htid hwin,
   sumInv_doSquash env tid sq s hinv htid hwin⟩

/-- C3 witness: the invariant is preserved across all five operations on a
concrete two-thread state. -/
theorem C3_accounting_witness :
    sumInv (insert (fun _ => ⟨0, 0, [], [], false, false⟩) 9 0
      { numEntries := 8, totalWidth := 2, instList := [[1, 2], [4]],
        readyInsts := [[]], listOrder := [], nonSpecInsts := [],
        dependGraph := fun _ => [], regScoreboard := fun _ => false,
        pendingSrcs := fun _ => 0, squashedSet := [], awaitReplay := [],
        count := [2, 1], freeEntries := 5, memDepUnit := fun _ => [] }) :=
  (C3_accounting (fun _ => ⟨0, 0, [], [], false, false⟩) 9 0 7
    { numEntries := 8, totalWidth := 2, instList := [[1, 2], [4]],
      readyInsts := [[]], listOrder := [], nonSpecInsts := [],
      dependGraph := fun _ => [], regScoreboard := fun _ => false,
      pendingSrcs := fun _ => 0, squashedSet := [], awaitReplay := [],
      count := [2, 1], freeEntries := 5, memDepUnit := fun _ => [] }
    (by decide) (by decide) (by decide) (by decide)).1

/- ### Claim C6: scoreboard and dependency graph coherence -/

/-- Scoreboard coherence (spec invariant 3 of section 8): a register whose
scoreboard bit is set holds no waiting consumer entries. -/
def sbInv (s : IQ) : Prop :=
  ∀ r, s.regScoreboard r = true → s.dependGraph r = []

theorem restEq_dependGraph {s t : IQ} (h : restEq s t) : s.dependGraph = t.dependGraph :=
  h.2.2.2.2.1

theorem restEq_regScoreboard {s t : IQ} (h : restEq s t) :
    s.regScoreboard = t.regScoreboard :=
  h.2.2.2.2.2.1

theorem addIfReady_sb (env : Nat → InstInfo) (m : Nat) (s : IQ) (hinv : sbInv s) :
    sbInv (addIfReady env m s) := by
  have h := addIfReady_restEq env m s
  intro r hr
  rw [restEq_dependGraph h]
  apply hinv r
  rwa [restEq_regScoreboard h] at hr

theorem cdFold_sb (s : IQ) (sn : Nat) (rs : List Nat) (acc : (Nat → List Nat) × Nat)
    (h : ∀ r, s.regScoreboard r = true → acc.1 r = []) :
    ∀ r, s.regScoreboard r = true → (rs.foldl (cdStep s sn) acc).1 r = [] := by
  induction rs generalizing acc with
  | nil => exact h
  | cons a as ih =>
    rw [List.foldl_cons]
    apply ih
    intro r hr
    unfold cdStep
    by_cases ha : s.regScoreboard a
    · rw [if_pos ha]
      exact h r hr
    · rw [if_neg ha]
      dsimp only
      by_cases hra : r = a
      · rw [hra] at hr
        exact absurd hr (by simp [ha])
      · rw [if_neg hra]
        exact h r hr

theorem createDependency_sb (env : Nat → InstInfo) (sn : Nat) (s : IQ)
    (hinv : sbInv s) : sbInv (createDependency env sn s) := by
  intro r hr
  have hr' : s.regScoreboard r = true := hr
  exact cdFold_sb s sn (env sn).srcRegs (s.dependGraph, 0)
    (fun r h => hinv r h) r hr'

theorem addToDependents_sb (env : Nat → InstInfo) (sn : Nat) (s : IQ)
    (hinv : sbInv s) : sbInv (addToDependents env sn s) := by
  intro r hr
  simp only [addToDependents] at hr
  by_cases h : r ∈ (env sn).destRegs
  · rw [if_pos h] at hr
    exact absurd hr (by simp)
  · rw [if_neg h] at hr
    exact hinv r hr

theorem wakeStep_sbfields (env : Nat → InstInfo) (st : IQ) (m : Nat) :
    (wakeStep env st m).regScoreboard = st.regScoreboard ∧
    (wakeStep env st m).dependGraph = st.dependGraph := by
  have h := addIfReady_restEq env m
    { st with pendingSrcs := fun m' =>
        if m' = m then st.pendingSrcs m - 1 else st.pendingSrcs m' }
  have h1 := restEq_regScoreboard h
  have h2 := restEq_dependGraph h
  exact ⟨h1, h2⟩

theorem wakeFold_sbfields (env : Nat → InstInfo) (cs : List Nat) (st : IQ) :
    (cs.foldl (wakeStep env) st).regScoreboard = st.regScoreboard ∧
    (cs.foldl (wakeStep env) st).dependGraph = st.dependGraph := by
  induction cs generalizing st with
  | nil => exact ⟨rfl, rfl⟩
  | cons a as ih =>
    rw [List.foldl_cons]
    obtain ⟨h1, h2⟩ := ih (wakeStep env st a)
    obtain ⟨g1, g2⟩ := wakeStep_sbfields env st a
    exact ⟨h1.trans g1, h2.trans g2⟩

theorem wakeOneReg_sb (env : Nat → InstInfo) (r : Nat) (s : IQ) (hinv : sbInv s) :
    sbInv (wakeOneReg env r s) := by
  intro r' hr'
  obtain ⟨hsb, hdg⟩ := wakeFold_sbfields env (s.dependGraph r)
    { s with
      regScoreboard := fun r'' => if r'' = r then true else s.regScoreboard r'',
      dependGraph := fun r'' => if r'' = r then [] else s.dependGraph r'' }
  have hr2 : (if r' = r then true else s.regScoreboard r') = true := by
    have := hr'
    rw [show (wakeOneReg env r s).regScoreboard = _ from hsb] at this
    exact this
  have hgoal : (wakeOneReg env r s).dependGraph r'
      = (if r' = r then [] else s.dependGraph r') := by
    rw [show (wakeOneReg env r s).dependGraph = _ from hdg]
  rw [hgoal]
  by_cases h : r' = r
  · rw [if_pos h]
  · rw [if_neg h]
    rw [if_neg h] at hr2
    exact hinv r' hr2

theorem wakeDependents_sb (env : Nat → InstInfo) (sn : Nat) (s : IQ)
    (hinv : sbInv s) : sbInv (wakeDependents env sn s) := by
  unfold wakeDependents
  generalize (env sn).destRegs = rs
  induction rs generalizing s with
  | nil => exact hinv
  | cons a as ih =>
    rw [List.foldl_cons]
    exact ih _ (wakeOneReg_sb env a s hinv)

theorem squashOne_sb (env : Nat → InstInfo) (tid sn : Nat) (s : IQ)
    (hinv : sbInv s) : sbInv (squashOne env tid sn s) := by
  intro r hr
  by_cases hI : (env sn).isIssued
  · simp only [squashOne, hI, if_true] at hr ⊢
    exact hinv r hr
  · simp only [squashOne, hI, Bool.false_eq_true, if_false] at hr ⊢
    by_cases h : r ∈ (env sn).srcRegs
    · rw [if_pos h, hinv r hr]
      simp
    · rw [if_neg h]
      exact hinv r hr

theorem doSquashRev_sb (env : Nat → InstInfo) (tid sq : Nat) (l : List Nat) (s : IQ)
    (hinv : sbInv s) : sbInv (doSquashRev env tid sq l s).2 := by
  induction l generalizing s with
  | nil => exact hinv
  | cons sn rest ih =>
    rw [doSquashRev]
    by_cases h : sq < sn
    · rw [if_pos h]
      exact ih _ (squashOne_sb env tid sn s hinv)
    · rw [if_neg h]
      exact hinv

theorem insert_sb (env : Nat → InstInfo) (sn tid : Nat) (s : IQ) (hinv : sbInv s) :
    sbInv (insert env sn tid s) :=
  addIfReady_sb env sn _ (addToDependents_sb env sn _ (createDependency_sb env sn
    { s with freeEntries := s.freeEntries - 1,
             count := s.count.set tid (s.count.getD tid 0 + 1),
             instList := s.instList.set tid (s.instList.getD tid [] ++ [sn]) }
    (fun r h => hinv r h)))

/-- C6: whenever regScoreboard marks a register as recently woken, its
dependency list is empty; this coherence is preserved by insert (and its
constituent createDependency and addToDependents), by wakeDependents, and by
the squash walk. -/
theorem C6_scoreboard_coherence (env : Nat → InstInfo) (sn tid sq : Nat) (s : IQ)
    (hinv : sbInv s) :
    sbInv (insert env sn tid s) ∧ sbInv (createDependency env sn s) ∧
    sbInv (addToDependents env sn s) ∧ sbInv (wakeDependents env sn s) ∧
    sbInv (doSquash env tid sq s) := by
  refine ⟨insert_sb env sn tid s hinv, createDependency_sb env sn s hinv,
    addToDependents_sb env sn s hinv, wakeDependents_sb env sn s hinv, ?_⟩
  intro r hr
  exact doSquashRev_sb env tid sq (s.instList.getD tid []).reverse s hinv r hr

/-- C6 witness: the coherence theorem applied to a concrete state whose
scoreboard has register 3 woken and whose graph is empty. -/
theorem C6_scoreboard_coherence_witness :
    sbInv (wakeDependents (fun _ => ⟨0, 0, [2], [3], false, false⟩) 1
      { numEntries := 8, totalWidth := 2, instList := [[1]], readyInsts := [[]],
        listOrder := [], nonSpecInsts := [], dependGraph := fun _ => [],
        regScoreboard := fun r => r = 3, pendingSrcs := fun _ => 0,
        squashedSet := [], awaitReplay := [], count := [1], freeEntries := 7,
        memDepUnit := fun _ => [] }) :=
  (C6_scoreboard_coherence (fun _ => ⟨0, 0, [2], [3], false, false⟩) 1 0 0
    { numEntries := 8, totalWidth := 2, instList := [[1]], readyInsts := [[]],
      listOrder := [], nonSpecInsts := [], dependGraph := fun _ => [],
      regScoreboard := fun r => r = 3, pendingSrcs := fun _ => 0,
      squashedSet := [], awaitReplay := [], count := [1], freeEntries := 7,
      memDepUnit := fun _ => [] }
    (fun _ _ => rfl)).2.2.2.1

/- ### Claim C2: squash -/

theorem squashOne_nonSpec (env : Nat → InstInfo) (tid sn : Nat) (s : IQ) :
    (squashOne env tid sn s).nonSpecInsts
      = s.nonSpecInsts.filter (fun m => m != sn) := by
  by_cases hI : (env sn).isIssued
  · simp [squashOne, hI]
  · simp [squashOne, hI]

theorem squashOne_graph (env : Nat → InstInfo) (tid sn : Nat) (s : IQ) (r : Nat) :
    (squashOne env tid sn s).dependGraph r =
      if (env sn).isIssued = false ∧ r ∈ (env sn).srcRegs
      then (s.dependGraph r).filter (fun m => m != sn)
      else s.dependGraph r := by
  by_cases hI : (env sn).isIssued
  · simp [squashOne, hI]
  · simp only [squashOne, hI, Bool.not_eq_true] at *
    by_cases hr : r ∈ (env sn).srcRegs
    · simp [hI, hr]
    · simp [hI, hr]

theorem squashOne_squashedSet (env : Nat → InstInfo) (tid sn : Nat) (s : IQ) :
    (squashOne env tid sn s).squashedSet =
      if (env sn).isIssued then s.squashedSet else sn :: s.squashedSet := by
  by_cases hI : (env sn).isIssued
  · simp [squashOne, hI]
  · simp [squashOne, hI]

theorem squashOne_instList (env : Nat → InstInfo) (tid sn : Nat) (s : IQ) :
    (squashOne env tid sn s).instList = s.instList := by
  by_cases hI : (env sn).isIssued
  · simp [squashOne, hI]
  · simp [squashOne, hI]

theorem squashOne_readyInsts (env : Nat → InstInfo) (tid sn : Nat) (s : IQ) :
    (squashOne env tid sn s).readyInsts = s.readyInsts := by
  by_cases hI : (env sn).isIssued
  · simp [squashOne, hI]
  · simp [squashOne, hI]

theorem doSquashRev_fst (env : Nat → InstInfo) (tid sq : Nat) (l : List Nat) (s : IQ) :
    (doSquashRev env tid sq l s).1 = l.dropWhile (fun x => decide (sq < x)) := by
  induction l generalizing s with
  | nil => simp [doSquashRev]
  | cons sn rest ih =>
    rw [doSquashRev]
    by_cases h : sq < sn
    · rw [if_pos h, List.dropWhile_cons_of_pos (by simpa using h)]
      exact ih _
    · rw [if_neg h, List.dropWhile_cons_of_neg (by simpa using h)]

theorem doSquashRev_instList (env : Nat → InstInfo) (tid sq : Nat) (l : List Nat)
    (s : IQ) : (doSquashRev env tid sq l s).2.instList = s.instList := by
  induction l generalizing s with
  | nil => rfl
  | cons sn rest ih =>
    rw [doSquashRev]
    by_cases h : sq < sn
    · rw [if_pos h, ih]
      exact squashOne_instList env tid sn s
    · rw [if_neg h]

theorem doSquashRev_readyInsts (env : Nat → InstInfo) (tid sq : Nat) (l : List Nat)
    (s : IQ) : (doSquashRev env tid sq l s).2.readyInsts = s.readyInsts := by
  induction l generalizing s with
  | nil => rfl
  | cons sn rest ih =>
    rw [doSquashRev]
    by_cases h : sq < sn
    · rw [if_pos h, ih]
      exact squashOne_readyInsts env tid sn s
    · rw [if_neg h]

theorem doSquashRev_nonSpec (env : Nat → InstInfo) (tid sq : Nat) (l : List Nat)
    (s : IQ) (m : Nat) :
    m ∈ (doSquashRev env tid sq l s).2.nonSpecInsts ↔
      m ∈ s.nonSpecInsts ∧ m ∉ l.takeWhile (fun x => decide (sq < x)) := by
  induction l generalizing s with
  | nil => simp [doSquashRev]
  | cons sn rest ih =>
    rw [doSquashRev]
    by_cases h : sq < sn
    · rw [if_pos h, List.takeWhile_cons_of_pos (by simpa using h), ih,
        squashOne_nonSpec]
      simp only [List.mem_filter, bne_iff_ne, ne_eq, List.mem_cons, not_or]
      tauto
    · rw [if_neg h, List.takeWhile_cons_of_neg (by simpa using h)]
      simp

theorem doSquashRev_graph (env : Nat → InstInfo) (tid sq : Nat) (l : List Nat)
    (s : IQ) (r m : Nat) (hm : m ∈ (doSquashRev env tid sq l s).2.dependGraph r) :
    m ∈ s.dependGraph r ∧
      ¬(m ∈ l.takeWhile (fun x => decide (sq < x)) ∧ (env m).isIssued = false ∧
        r ∈ (env m).srcRegs) := by
  induction l generalizing s with
  | nil =>
    refine ⟨hm, ?_⟩
    simp
  | cons sn rest ih =>
    rw [doSquashRev] at hm
    by_cases h : sq < sn
    · rw [if_pos h] at hm
      obtain ⟨hm1, hm2⟩ := ih (squashOne env tid sn s) hm
      rw [squashOne_graph] at hm1
      by_cases hc : (env sn).isIssued = false ∧ r ∈ (env sn).srcRegs
      · rw [if_pos hc] at hm1
        have hmf := List.mem_filter.mp hm1
        refine ⟨hmf.1, ?_⟩
        rw [List.takeWhile_cons_of_pos (by simpa using h)]
        rintro ⟨hmt, hmi, hmr⟩
        rcases List.mem_cons.mp hmt with rfl | hmt
        · exact (bne_iff_ne.mp hmf.2) rfl
        · exact hm2 ⟨hmt, hmi, hmr⟩
      · rw [if_neg hc] at hm1
        refine ⟨hm1, ?_⟩
        rw [List.takeWhile_cons_of_pos (by simpa using h)]
        rintro ⟨hmt, hmi, hmr⟩
        rcases List.mem_cons.mp hmt with rfl | hmt
        · exact hc ⟨hmi, hmr⟩
        · exact hm2 ⟨hmt, hmi, hmr⟩
    · rw [if_neg h] at hm
      refine ⟨hm, ?_⟩
      rw [List.takeWhile_cons_of_neg (by simpa using h)]
      simp

theorem doSquashRev_squashed_mono (env : Nat → InstInfo) (tid sq : Nat)
    (l : List Nat) (s : IQ) (m : Nat) (hm : m ∈ s.squashedSet) :
    m ∈ (doSquashRev env tid sq l s).2.squashedSet := by
  induction l generalizing s with
  | nil => exact hm
  | cons sn rest ih =>
    rw [doSquashRev]
    by_cases h : sq < sn
    · rw [if_pos h]
      apply ih
      rw [squashOne_squashedSet]
      by_cases hI : (env sn).isIssued
      · rw [if_pos hI]
        exact hm
      · rw [if_neg hI]
        exact List.mem_cons_of_mem sn hm
    · rw [if_neg h]
      exact hm

theorem doSquashRev_squashed (env : Nat → InstInfo) (tid sq : Nat) (l : List Nat)
    (s : IQ) (m : Nat) (hmt : m ∈ l.takeWhile (fun x => decide (sq < x)))
    (hmi : (env m).isIssued = false) :
    m ∈ (doSquashRev env tid sq l s).2.squashedSet := by
  induction l generalizing s with
  | nil => simp at hmt
  | cons sn rest ih =>
    by_cases h : sq < sn
    · rw [doSquashRev, if_pos h]
      rw [List.takeWhile_cons_of_pos (by simpa using h)] at hmt
      rcases List.mem_cons.mp hmt with rfl | hmt
      · apply doSquashRev_squashed_mono
        rw [squashOne_squashedSet, if_neg (by simp [hmi])]
        exact List.mem_cons_self m _
      · exact ih (squashOne env tid sn s) hmt
    · rw [List.takeWhile_cons_of_neg (by simpa using h)] at hmt
      simp at hmt

theorem mem_takeWhile_of_gt (sq : Nat) (l : List Nat) (hs : l.Pairwise (· > ·))
    (m : Nat) (hm : m ∈ l) (hgt : sq < m) :
    m ∈ l.takeWhile (fun x => decide (sq < x)) := by
  induction l with
  | nil => simp at hm
  | cons x xs ih =>
    rcases List.pairwise_cons.mp hs with ⟨hx, hxs⟩
    rcases List.mem_cons.mp hm with rfl | hm
    · rw [List.takeWhile_cons_of_pos (by simpa using hgt)]
      exact List.mem_cons_self m _
    · have hmx : m < x := hx m hm
      rw [List.takeWhile_cons_of_pos (by simpa using lt_trans hgt hmx)]
      exact List.mem_cons_of_mem x (ih hxs hm)

theorem dropWhile_desc_le (sq : Nat) (l : List Nat) (hs : l.Pairwise (· > ·)) :
    ∀ m ∈ l.dropWhile (fun x => decide (sq < x)), m ≤ sq := by
  induction l with
  | nil => simp
  | cons x xs ih =>
    rcases List.pairwise_cons.mp hs with ⟨hx, hxs⟩
    by_cases h : sq < x
    · rw [List.dropWhile_cons_of_pos (by simpa using h)]
      exact ih hxs
    · rw [List.dropWhile_cons_of_neg (by simpa using h)]
      intro m hm
      rcases List.mem_cons.mp hm with rfl | hm
      · exact le_of_not_lt h
      · exact le_trans (le_of_lt (hx m hm)) (le_of_not_lt h)

/-- C2 (amended): after doSquash of thread tid back to sequence number sq, no
instruction of that thread younger than sq remains in the instruction window,
the non-speculative map or the dependency graph; instructions younger than sq
still sitting in a ready queue (the lazy removal of section 4.8) are marked
squashed, to be skipped at scheduling time. The hypotheses are the structure
invariants: the window is in dispatch order, and every non-speculative map or
dependency graph or ready queue occupant of the thread is a not-yet-issued
member of its window (dependency entries at their source registers). -/
theorem C2_doSquash (env : Nat → InstInfo) (tid sq : Nat) (s : IQ)
    (hsort : (s.instList.getD tid []).Pairwise (· < ·))
    (htid : tid < s.instList.length)
    (hns : ∀ m ∈ s.nonSpecInsts, (env m).tid = tid → m ∈ s.instList.getD tid [])
    (hdg : ∀ r, ∀ m ∈ s.dependGraph r, (env m).tid = tid →
      m ∈ s.instList.getD tid [] ∧ (env m).isIssued = false ∧ r ∈ (env m).srcRegs)
    (hrq : ∀ q ∈ s.readyInsts, ∀ m ∈ q, (env m).tid = tid →
      m ∈ s.instList.getD tid [] ∧ (env m).isIssued = false) :
    (∀ m ∈ (doSquash env tid sq s).instList.getD tid [], m ≤ sq) ∧
    (∀ m ∈ (doSquash env tid sq s).nonSpecInsts, (env m).tid = tid → m ≤ sq) ∧
    (∀ r, ∀ m ∈ (doSquash env tid sq s).dependGraph r, (env m).tid = tid → m ≤ sq) ∧
    (∀ q ∈ (doSquash env tid sq s).readyInsts, ∀ m ∈ q, (env m).tid = tid → sq < m →
      m ∈ (doSquash env tid sq s).squashedSet) := by
  have hrev : (s.instList.getD tid []).reverse.Pairwise (· > ·) :=
    List.pairwise_reverse.mpr hsort
  have hinr : ∀ m, m ∈ s.instList.getD tid [] →
      m ∈ (s.instList.getD tid []).reverse := by
    intro m hm
    exact List.mem_reverse.mpr hm
  refine ⟨?_, ?_, ?_, ?_⟩
  · intro m hm
    have hlist : (doSquash env tid sq s).instList.getD tid []
        = ((s.instList.getD tid []).reverse.dropWhile
            (fun x => decide (sq < x))).reverse := by
      show ((doSquashRev env tid sq (s.instList.getD tid []).reverse s).2.instList.set
          tid (doSquashRev env tid sq (s.instList.getD tid []).reverse s).1.reverse).getD
          tid [] = _
      rw [getD_set_self _ _ _ _ (by
        rw [doSquashRev_instList]
        exact htid), doSquashRev_fst]
    rw [hlist, List.mem_reverse] at hm
    exact dropWhile_desc_le sq _ hrev m hm
  · intro m hm htidm
    have hm' : m ∈ (doSquashRev env tid sq (s.instList.getD tid []).reverse s).2.nonSpecInsts := hm
    rw [doSquashRev_nonSpec] at hm'
    by_contra hgt
    exact hm'.2 (mem_takeWhile_of_gt sq _ hrev m
      (hinr m (hns m hm'.1 htidm)) (lt_of_not_le hgt))
  · intro r m hm htidm
    have hm' : m ∈ (doSquashRev env tid sq (s.instList.getD tid []).reverse s).2.dependGraph r := hm
    obtain ⟨hm1, hm2⟩ := doSquashRev_graph env tid sq _ s r m hm'
    obtain ⟨hmem, hmi, hmr⟩ := hdg r m hm1 htidm
    by_contra hgt
    exact hm2 ⟨mem_takeWhile_of_gt sq _ hrev m (hinr m hmem) (lt_of_not_le hgt),
      hmi, hmr⟩
  · intro q hq m hm htidm hgt
    have hq' : q ∈ s.readyInsts := by
      have : (doSquash env tid sq s).readyInsts = s.readyInsts := by
        show (doSquashRev env tid sq (s.instList.getD tid []).reverse s).2.readyInsts = _
        exact doSquashRev_readyInsts env tid sq _ s
      rwa [this] at hq
    obtain ⟨hmem, hmi⟩ := hrq q hq' m hm htidm
    exact doSquashRev_squashed env tid sq _ s m
      (mem_takeWhile_of_gt sq _ hrev m (hinr m hmem) hgt) hmi

/-- Environment of the C2 counterexample and witness: every sequence number is
a not-yet-issued, speculative instruction of thread 0 and op class 0. -/
def exEnvC2 : Nat → InstInfo := fun _ => ⟨0, 0, [], [], false, false⟩

/-- State of the C2 counterexample and witness: instruction 2 of thread 0 is
in the window and in ready queue 0. -/
def exC2 : IQ :=
  { numEntries := 8, totalWidth := 2, instList := [[2]], readyInsts := [[2]],
    listOrder := [⟨0, 2⟩], nonSpecInsts := [], dependGraph := fun _ => [],
    regScoreboard := fun _ => false, pendingSrcs := fun _ => 0, squashedSet := [],
    awaitReplay := [], count := [1], freeEntries := 7, memDepUnit := fun _ => [] }

/-- C2 counterexample: after doSquash of thread 0 back to sequence number 1,
instruction 2 — thread 0 and 2 greater than 1 — is still reachable from ready
queue 0: the lazy removal of section 4.8 leaves it in the queue and only marks
it squashed, so the claim that no such instruction is reachable from any IQ
structure including the ready queues is false. -/
theorem C2_counterexample :
    2 ∈ (doSquash exEnvC2 0 1 exC2).queue 0 ∧ (exEnvC2 2).tid = 0 ∧ 1 < 2 := by
  decide

/-- C2 witness: the amended theorem applied to the concrete state, showing the
squashed-in-queue instruction 2 lands in the squashed set. -/
theorem C2_doSquash_witness : 2 ∈ (doSquash exEnvC2 0 1 exC2).squashedSet :=
  (C2_doSquash exEnvC2 0 1 exC2 (by decide) (by decide) (by decide)
    (fun r m hm => absurd hm (List.not_mem_nil m)) (by decide)).2.2.2
    [2] (by decide) 2 (by decide) (by decide) (by decide)

/- ### Claim C8: reschedule and replay of memory instructions -/

theorem eraseReady_of_notin (c sn : Nat) (s : IQ) (h : sn ∉ s.queue c) :
    eraseReady c sn s = s := by
  simp only [eraseReady]
  rw [if_neg h]

theorem eraseReady_to_nil (c sn : Nat) (s : IQ) (h : sn ∈ s.queue c)
    (hq' : (s.queue c).filter (fun m => m != sn) = []) :
    eraseReady c sn s =
      { s with readyInsts := s.readyInsts.set c [],
               listOrder := s.listOrder.filter (fun e => e.queueType != c) } := by
  simp only [eraseReady]
  rw [if_pos h, hq', if_pos rfl]

theorem eraseReady_head (c sn : Nat) (s : IQ) (h : sn ∈ s.queue c)
    (hq' : (s.queue c).filter (fun m => m != sn) ≠ [])
    (hh : sn = (s.queue c).headD 0) :
    eraseReady c sn s = moveToYoungerInst c
      { s with readyInsts :=
          s.readyInsts.set c ((s.queue c).filter (fun m => m != sn)) } := by
  simp only [eraseReady]
  rw [if_pos h, if_neg hq', if_pos hh]

theorem eraseReady_mid (c sn : Nat) (s : IQ) (h : sn ∈ s.queue c)
    (hq' : (s.queue c).filter (fun m => m != sn) ≠ [])
    (hh : ¬ sn = (s.queue c).headD 0) :
    eraseReady c sn s =
      { s with readyInsts :=
          s.readyInsts.set c ((s.queue c).filter (fun m => m != sn)) } := by
  simp only [eraseReady]
  rw [if_pos h, if_neg hq', if_neg hh]

theorem eraseReady_queue_self (c sn : Nat) (s : IQ) :
    (eraseReady c sn s).queue c = (s.queue c).filter (fun m => m != sn) := by
  by_cases h : sn ∈ s.queue c
  · have hc := queue_ne_nil_lt s c (List.ne_nil_of_mem h)
    by_cases h1 : (s.queue c).filter (fun m => m != sn) = []
    · rw [eraseReady_to_nil c sn s h h1, h1]
      exact getD_set_self _ _ _ _ hc
    · by_cases h2 : sn = (s.queue c).headD 0
      · rw [eraseReady_head c sn s h h1 h2]
        exact getD_set_self _ _ _ _ hc
      · rw [eraseReady_mid c sn s h h1 h2]
        exact getD_set_self _ _ _ _ hc
  · rw [eraseReady_of_notin c sn s h]
    symm
    refine List.filter_eq_self.mpr ?_
    intro m hm
    simp only [bne_iff_ne, ne_eq]
    intro he
    exact h (he ▸ hm)

theorem eraseReady_awaitReplay (c sn : Nat) (s : IQ) :
    (eraseReady c sn s).awaitReplay = s.awaitReplay := by
  by_cases h : sn ∈ s.queue c
  · by_cases h1 : (s.queue c).filter (fun m => m != sn) = []
    · rw [eraseReady_to_nil c sn s h h1]
    · by_cases h2 : sn = (s.queue c).headD 0
      · rw [eraseReady_head c sn s h h1 h2]
        rfl
      · rw [eraseReady_mid c sn s h h1 h2]
  · rw [eraseReady_of_notin c sn s h]

theorem orderInsert_filter_class (c x : Nat) (l : List ListOrderEntry)
    (hs : l.Pairwise (fun a b => a.oldestInst < b.oldestInst))
    (hn : (l.map (·.queueType)).Nodup) (he : (⟨c, x⟩ : ListOrderEntry) ∈ l) :
    orderInsert ⟨c, x⟩ (l.filter (fun f => f.queueType != c)) = l :=
  orderInsert_filter_self ⟨c, x⟩ l hs hn he

theorem eraseReady_pushReady (c sn : Nat) (s : IQ) (hw : WFready s)
    (hc : c < s.readyInsts.length) (hf : freshSN s sn) :
    eraseReady c sn (pushReady c sn s) = s := by
  obtain ⟨WQ, DJ, ND, EP, CV, LO⟩ := hw
  have hfq : sn ∉ s.queue c := fresh_notin_queue s sn c hf hc
  have hback : s.readyInsts.set c (s.queue c) = s.readyInsts :=
    set_getD_self s.readyInsts c [] hc
  cases hq : s.queue c with
  | nil =>
    rw [pushReady_of_nil c sn s hq]
    have hPq : ({ s with
        readyInsts := s.readyInsts.set c [sn],
        listOrder := orderInsert ⟨c, sn⟩ s.listOrder } : IQ).queue c = [sn] :=
      getD_set_self _ _ _ _ hc
    rw [eraseReady_to_nil _ _ _ (by rw [hPq]; exact List.mem_singleton_self sn)
      (by rw [hPq]; simp)]
    have h2 : (s.readyInsts.set c [sn]).set c [] = s.readyInsts := by
      rw [List.set_set, ← hq]
      exact hback
    have h3 : (orderInsert ⟨c, sn⟩ s.listOrder).filter (fun e => e.queueType != c)
        = s.listOrder := by
      rw [filter_orderInsert _ _ _ (by simp)]
      refine List.filter_eq_self.mpr ?_
      intro e he
      simp only [bne_iff_ne, ne_eq]
      intro hcc
      exact (EP e he).2.1 (by rw [hcc]; exact hq)
    rw [h2, h3]
  | cons x xs =>
    have hsnx : sn ≠ x := by
      intro he
      exact hfq (by rw [hq, he]; exact List.mem_cons_self x xs)
    have hsnxs : sn ∉ xs := by
      intro hm
      exact hfq (by rw [hq]; exact List.mem_cons_of_mem x hm)
    by_cases hlt : sn < x
    · rw [pushReady_of_newmin c sn x xs s hq hlt]
      have hPq : ({ s with
          readyInsts := s.readyInsts.set c (sn :: x :: xs),
          listOrder := orderInsert ⟨c, sn⟩
            (s.listOrder.filter (fun e => e.queueType != c)) } : IQ).queue c
          = sn :: x :: xs :=
        getD_set_self _ _ _ _ hc
      have hfilter : (sn :: x :: xs).filter (fun m => m != sn) = x :: xs := by
        rw [List.filter_cons_of_neg (by simp)]
        refine List.filter_eq_self.mpr ?_
        intro m hm
        simp only [bne_iff_ne, ne_eq]
        intro he
        rcases List.mem_cons.mp hm with rfl | hm
        · exact hsnx he.symm
        · exact hsnxs (he ▸ hm)
      rw [eraseReady_head _ _ _
        (by rw [hPq]; exact List.mem_cons_self sn (x :: xs))
        (by rw [hPq, hfilter]; simp)
        (by rw [hPq]; rfl)]
      rw [hPq, hfilter]
      unfold moveToYoungerInst
      have hPq2 : ({ s with
          readyInsts := (s.readyInsts.set c (sn :: x :: xs)).set c (x :: xs),
          listOrder := orderInsert ⟨c, sn⟩
            (s.listOrder.filter (fun e => e.queueType != c)) } : IQ).queue c
          = x :: xs := by
        rw [IQ.queue, List.set_set]
        exact getD_set_self _ _ _ _ hc
      rw [hPq2]
      have h2 : (s.readyInsts.set c (sn :: x :: xs)).set c (x :: xs)
          = s.readyInsts := by
        rw [List.set_set, ← hq]
        exact hback
      have h3 : (orderInsert ⟨c, sn⟩
            (s.listOrder.filter (fun e => e.queueType != c))).filter
              (fun e => e.queueType != c)
          = s.listOrder.filter (fun e => e.queueType != c) := by
        rw [filter_orderInsert _ _ _ (by simp)]
        exact List.filter_eq_self.mpr (fun e he => (List.mem_filter.mp he).2)
      have hentry : (⟨c, x⟩ : ListOrderEntry) ∈ s.listOrder := by
        obtain ⟨e', he', hcl⟩ := CV c hc (by rw [hq]; simp)
        obtain ⟨_, _, hold⟩ := EP e' he'
        cases e' with
        | mk qt oi =>
          dsimp only at hcl
          subst hcl
          dsimp only at hold
          rw [hq] at hold
          simp only [List.headD_cons] at hold
          subst hold
          exact he'
      have h4 : orderInsert ⟨c, (x :: xs).headD 0⟩
            (s.listOrder.filter (fun e => e.queueType != c)) = s.listOrder := by
        simp only [List.headD_cons]
        exact orderInsert_filter_class c x s.listOrder LO ND hentry
      rw [h2, h3, h4]
    · rw [pushReady_of_notmin c sn x xs s hq hlt]
      have hPq : ({ s with
          readyInsts := s.readyInsts.set c (x :: sortedInsert sn xs) } : IQ).queue c
          = x :: sortedInsert sn xs :=
        getD_set_self _ _ _ _ hc
      have hfilter : (x :: sortedInsert sn xs).filter (fun m => m != sn)
          = x :: xs := by
        rw [List.filter_cons_of_pos (by simpa using hsnx.symm),
          filter_sortedInsert sn xs hsnxs]
      rw [eraseReady_mid _ _ _
        (by
          rw [hPq]
          exact List.mem_cons_of_mem x ((mem_sortedInsert sn sn xs).mpr (Or.inl rfl)))
        (by rw [hPq, hfilter]; simp)
        (by rw [hPq]; simpa using hsnx)]
      rw [hPq, hfilter]
      have h2 : (s.readyInsts.set c (x :: sortedInsert sn xs)).set c (x :: xs)
          = s.readyInsts := by
        rw [List.set_set, ← hq]
        exact hback
      rw [h2]

theorem rescheduleMemInst_idem (env : Nat → InstInfo) (sn : Nat) (s : IQ) :
    rescheduleMemInst env sn (rescheduleMemInst env sn s)
      = rescheduleMemInst env sn s := by
  have hnotin : sn ∉ (rescheduleMemInst env sn s).queue ((env sn).opClass) := by
    intro hmem
    have hm2 : sn ∈ (eraseReady (env sn).opClass sn s).queue ((env sn).opClass) := hmem
    rw [eraseReady_queue_self] at hm2
    have := (List.mem_filter.mp hm2).2
    simp at this
  have hin : sn ∈ (rescheduleMemInst env sn s).awaitReplay := by
    show sn ∈ (if sn ∈ (eraseReady (env sn).opClass sn s).awaitReplay
      then (eraseReady (env sn).opClass sn s).awaitReplay
      else sn :: (eraseReady (env sn).opClass sn s).awaitReplay)
    split
    · assumption
    · exact List.mem_cons_self sn _
  conv_lhs => rw [rescheduleMemInst]
  rw [eraseReady_of_notin _ _ _ hnotin, if_pos hin]

theorem replay_after_reschedule (env : Nat → InstInfo) (sn : Nat) (s : IQ)
    (hw : WFready s) (hc : (env sn).opClass < s.readyInsts.length)
    (hf : freshSN s sn) (har : sn ∉ s.awaitReplay) :
    replayMemInst env sn (rescheduleMemInst env sn (addReadyMemInst env sn s))
      = addReadyMemInst env sn s := by
  have h1 : eraseReady (env sn).opClass sn (addReadyMemInst env sn s) = s :=
    eraseReady_pushReady (env sn).opClass sn s hw hc hf
  have h2 : rescheduleMemInst env sn (addReadyMemInst env sn s)
      = { s with awaitReplay := sn :: s.awaitReplay } := by
    rw [rescheduleMemInst, h1, if_neg har]
  rw [h2]
  have h3 : (sn :: s.awaitReplay).filter (fun m => m != sn) = s.awaitReplay := by
    rw [List.filter_cons_of_neg (by simp)]
    refine List.filter_eq_self.mpr ?_
    intro m hm
    simp only [bne_iff_ne, ne_eq]
    intro he
    exact har (he ▸ hm)
  show addReadyMemInst env sn
    { ({ s with awaitReplay := sn :: s.awaitReplay } : IQ) with
      awaitReplay := (sn :: s.awaitReplay).filter (fun m => m != sn) }
    = addReadyMemInst env sn s
  rw [h3]

/-- C8: rescheduleMemInst is idempotent on the IQ state — a second call on the
same instruction changes nothing — and rescheduleMemInst followed by
replayMemInst returns the instruction to its ready queue with exactly the
placement of its original admission via addReadyMemInst: the whole state,
ready queues and age order list included, is restored to what addReadyMemInst
produced. -/
theorem C8_reschedule_replay (env : Nat → InstInfo) (sn : Nat) (s : IQ)
    (hw : WFready s) (hc : (env sn).opClass < s.readyInsts.length)
    (hf : freshSN s sn) (har : sn ∉ s.awaitReplay) :
    rescheduleMemInst env sn (rescheduleMemInst env sn s)
        = rescheduleMemInst env sn s ∧
    replayMemInst env sn (rescheduleMemInst env sn (addReadyMemInst env sn s))
        = addReadyMemInst env sn s :=
  ⟨rescheduleMemInst_idem env sn s,
   replay_after_reschedule env sn s hw hc hf har⟩

/-- Environment for the C8 witness: everything is a thread 0, op class 0,
unissued memory instruction. -/
def exEnvC8 : Nat → InstInfo := fun _ => ⟨0, 0, [], [], false, false⟩

/-- State for the C8 witness: ready queue 0 holds instructions 2 and 7. -/
def exC8 : IQ :=
  { numEntries := 8, totalWidth := 2, instList := [[2, 5, 7]], readyInsts := [[2, 7]],
    listOrder := [⟨0, 2⟩], nonSpecInsts := [], dependGraph := fun _ => [],
    regScoreboard := fun _ => false, pendingSrcs := fun _ => 0, squashedSet := [],
    awaitReplay := [], count := [3], freeEntries := 5, memDepUnit := fun _ => [] }

/-- C8 witness: the round trip on instruction 5 over the concrete state. -/
theorem C8_reschedule_replay_witness :
    replayMemInst exEnvC8 5 (rescheduleMemInst exEnvC8 5 (addReadyMemInst exEnvC8 5 exC8))
      = addReadyMemInst exEnvC8 5 exC8 :=
  (C8_reschedule_replay exEnvC8 5 exC8 (by decide) (by decide) (by decide)
    (by decide)).2

/- ### Claim C4: the age order list invariant -/

/-- C4: the age order list contains exactly one entry for each op class whose
ready queue is non-empty — no entry for an empty queue, no duplicate entries —
each entry keyed by the oldest sequence number of its queue, and the entries
strictly ascending by that key (the WFready invariant); the operations that
add to or remove from a ready queue preserve it: pushReady (the
addIfReady/addToOrderList/reposition path), the scheduleReadyInsts pop (the
popReadyTop/moveToYoungerInst path) and addIfReady itself, for a fresh
sequence number of an in-range op class. -/
theorem C4_age_order_list (env : Nat → InstInfo) (c sn : Nat) (s : IQ)
    (hw : WFready s) (hc : c < s.readyInsts.length) (hf : freshSN s sn)
    (hc2 : (env sn).opClass < s.readyInsts.length) :
    WFready (pushReady c sn s) ∧ WFready (popReadyTop c s) ∧
    WFready (addIfReady env sn s) := by
  refine ⟨pushReady_WF c sn s hw hc hf, popReadyTop_WF c s hw, ?_⟩
  unfold addIfReady
  split
  · exact pushReady_WF _ sn s hw hc2 hf
  · exact hw

/-- C4 witness: a pop on the concrete two-class state keeps the age order list
well formed. -/
theorem C4_age_order_list_witness : WFready (popReadyTop 0 exC8) :=
  (C4_age_order_list exEnvC8 0 4 exC8 (by decide) (by decide) (by decide)
    (by decide)).2.1

/- ### Claim C1: scheduleReadyInsts -/

/-- Insertion sort by sequence number, used to state the K-smallest reading of
the oldest-first law. -/
def insertionSort (l : List Nat) : List Nat :=
  l.foldr sortedInsert []

/-- The k globally smallest sequence numbers of a list. -/
def kSmallest (k : Nat) (l : List Nat) : List Nat :=
  (insertionSort l).take k

/-- State for the C1 counterexample and witness: ready queue of class 0 holds
instructions 1 and 2, class 1 holds instruction 3, issue width 2. -/
def exC1 : IQ :=
  { numEntries := 8, totalWidth := 2, instList := [[1, 2, 3]],
    readyInsts := [[1, 2], [3]], listOrder := [⟨0, 1⟩, ⟨1, 3⟩], nonSpecInsts := [],
    dependGraph := fun _ => [], regScoreboard := fun _ => false,
    pendingSrcs := fun _ => 0, squashedSet := [], awaitReplay := [],
    count := [3], freeEntries := 5, memDepUnit := fun _ => [] }

/-- C1 counterexample: with one free function unit per class and width 2 the
walk issues instructions 1 and 3 — class 0's unit is consumed by 1, so 2
cannot issue — but instructions 1 and 2 are the two globally smallest ready
instructions whose op classes have an available function unit that cycle, so
the issued instructions are not the K globally smallest such instructions. -/
theorem C1_counterexample :
    scheduleReadyInsts exC1 [1, 1] = [1, 3] ∧
    ¬ (scheduleReadyInsts exC1 [1, 1]
        = kSmallest (scheduleReadyInsts exC1 [1, 1]).length (readyAvail exC1 [1, 1])) := by
  decide

/-- C1 (amended): scheduleReadyInsts issues at most totalWidth instructions
per tick, and the issued sequence, in order, is exactly the greedy
oldest-first selection under function unit constraints: at every step the
globally smallest sequence number among ready instructions whose op class
still has a free function unit is issued and that class's free-unit count is
decremented (greedyAux), given well-formed queues with no squashed entries. -/
theorem C1_scheduleReadyInsts (s : IQ) (fu : List Nat)
    (hw : WFready s) (hs : noSquashedReady s) :
    (scheduleReadyInsts s fu).length ≤ s.totalWidth ∧
    scheduleReadyInsts s fu = greedyAux s.totalWidth s fu := by
  refine ⟨scheduleAux_length _ s fu s.totalWidth, ?_⟩
  exact scheduleAux_eq_greedy s.totalWidth (totalReady s + s.totalWidth) s fu
    (by omega) hw hs

/-- C1 witness: the amended theorem on the concrete state, equating the walk
with the greedy selection. -/
theorem C1_scheduleReadyInsts_witness :
    scheduleReadyInsts exC1 [1, 1] = greedyAux exC1.totalWidth exC1 [1, 1] :=
  (C1_scheduleReadyInsts exC1 [1, 1] (by decide) (by decide)).2

end InstQueue
